import Mathlib

/-!
# Node ↔ feature-segment index (`routing/osrm2feature_map.cpp`)

A shallow embedding of `OsrmFtSegMapping` (the reader), `OsrmFtSegMapping::FtSeg`
(the segment value type) and `OsrmFtSegMappingBuilder` (the writer), followed by
theorems about them.

Conventions of the embedding.

* Machine integers are natural numbers.  `uint16_t` fields hold values below `65536`,
  `uint32_t` values are below `4294967296`, and `size_t` is the 64-bit type whose
  arithmetic is taken modulo `18446744073709551616`.  Every place where the source
  narrows or where unsigned arithmetic can wrap carries an explicit `%`.
* `CHECK_*` (always compiled in, fatal) and `ASSERT_*` failures are the value `none`.
* A pointer into the mapped segment region is the index of the element it points at;
  a read through a pointer past the end of the region is `none`.
* `Save` followed by `Load` copies the two arrays verbatim, so the reader functions
  take the segment array and the offset table as arguments.
-/

namespace routing

/-! ## Data model -/

/-- Modelled from the spec: the field widths of record `OsrmFtSegMapping::FtSeg`, whose
declaration (`osrm2feature_map.hpp`) is not among the sources.  The spec gives the layout
`{featureId: u32, pointStart: u16, pointEnd: u16}`, in agreement with the narrowing casts
of the constructor. -/
structure FtSeg where
  m_fid : Nat
  m_pointStart : Nat
  m_pointEnd : Nat
deriving DecidableEq, Repr

/-- Modelled from the spec: the field widths of record `OsrmFtSegMapping::SegOffset`
(`m_nodeId`, `m_offset`), whose declaration is not among the sources.  The spec gives the
layout `{nodeId: u32, cumulativeOffset: u32}`; `OsrmNodeIdT` is that 32-bit unsigned
type. -/
structure SegOffset where
  m_nodeId : Nat
  m_offset : Nat
deriving DecidableEq, Repr

/-- The value `-1` converted to `uint32_t` (all bits set); it is `FtSeg::INVALID_FID`
and `INVALID` of `GetOsrmNode`. -/
def INVALID_FID : Nat := 4294967295

namespace FtSeg

/-- Constructor `FtSeg::FtSeg(uint32_t fid, uint32_t ps, uint32_t pe)` (lines 16-24):
the two point indices are narrowed to 16 bits, then the three `CHECK`s run. -/
def construct (fid ps pe : Nat) : Option FtSeg :=
  let m_pointStart := ps % 65536
  let m_pointEnd := pe % 65536
  if ps = pe then none
  else if m_pointStart ≠ ps then none
  else if m_pointEnd ≠ pe then none
  else some ⟨fid, m_pointStart, m_pointEnd⟩

/-- The direction flag the source computes as `m_pointEnd > m_pointStart`. -/
def dir (s : FtSeg) : Bool := decide (s.m_pointEnd > s.m_pointStart)

/-- Lower end `min(m_pointStart, m_pointEnd)` of the point interval. -/
def lo (s : FtSeg) : Nat := min s.m_pointStart s.m_pointEnd

/-- Upper end `max(m_pointStart, m_pointEnd)` of the point interval. -/
def hi (s : FtSeg) : Nat := max s.m_pointStart s.m_pointEnd

end FtSeg

/-- Modelled from the spec: `my::IsIntersect` of `base/math.hpp`, which is not among the
sources.  The spec describes it as the test that two closed intervals `[x0, x1]` and
`[x2, x3]` "intersect (overlap or touch)": neither interval lies wholly before the
other. -/
def my_IsIntersect (x0 x1 x2 x3 : Nat) : Bool :=
  !(decide (x1 < x2) || decide (x3 < x0))

namespace FtSeg

/-- Method `FtSeg::Merge(FtSeg const & other)` (lines 26-51).  The receiver is mutated in
place and `other` is a `const` reference, so the result is the returned flag together
with the receiver after the call. -/
def Merge (self other : FtSeg) : Bool × FtSeg :=
  if other.m_fid ≠ self.m_fid then (false, self)
  else
    let dir := decide (other.m_pointEnd > other.m_pointStart)
    if dir ≠ decide (self.m_pointEnd > self.m_pointStart) then (false, self)
    else
      let s1 := min self.m_pointStart self.m_pointEnd
      let e1 := max self.m_pointStart self.m_pointEnd
      let s2 := min other.m_pointStart other.m_pointEnd
      let e2 := max other.m_pointStart other.m_pointEnd
      if my_IsIntersect s1 e1 s2 e2 then
        let m_pointStart := min s1 s2
        let m_pointEnd := max e1 e2
        if !dir then (true, ⟨self.m_fid, m_pointEnd, m_pointStart⟩)
        else (true, ⟨self.m_fid, m_pointStart, m_pointEnd⟩)
      else (false, self)

/-- Method `FtSeg::IsIntersect(FtSeg const & other) const` (lines 53-64). -/
def IsIntersect (self other : FtSeg) : Bool :=
  if other.m_fid ≠ self.m_fid then false
  else
    let s1 := min self.m_pointStart self.m_pointEnd
    let e1 := max self.m_pointStart self.m_pointEnd
    let s2 := min other.m_pointStart other.m_pointEnd
    let e2 := max other.m_pointStart other.m_pointEnd
    my_IsIntersect s1 e1 s2 e2

/-- The two closed point intervals share at least one point index. -/
def Touches (a b : FtSeg) : Prop :=
  ∃ p : Nat, a.lo ≤ p ∧ p ≤ a.hi ∧ b.lo ≤ p ∧ p ≤ b.hi

end FtSeg

/-! ## `std::lower_bound` -/

/-- The loop of `std::lower_bound` over `[first, first + len)`: halve the remaining
length, step right past `mid` when `comp(*mid, val)` holds, otherwise keep the left
half.  `fuel` bounds the number of iterations; `len` strictly decreases, so `len`
iterations always suffice. -/
def lowerBoundLoop {α : Type} (comp : α → Bool) (xs : List α) : Nat → Nat → Nat → Nat
  | 0, first, _ => first
  | fuel + 1, first, len =>
    if len = 0 then first
    else
      let half := len / 2
      let mid := first + half
      match xs[mid]? with
      | some x =>
        if comp x then lowerBoundLoop comp xs fuel (mid + 1) (len - half - 1)
        else lowerBoundLoop comp xs fuel first half
      | none => first

/-- Call `std::lower_bound(xs.begin(), xs.end(), val, cmp)` with `comp x = cmp(x, val)`;
the result is the distance of the returned iterator from `xs.begin()`. -/
def lower_bound {α : Type} (comp : α → Bool) (xs : List α) : Nat :=
  lowerBoundLoop comp xs xs.length 0 xs.length

/-! ## Reader: `OsrmFtSegMapping` -/

/-- Method `OsrmFtSegMapping::GetSegmentsRange(OsrmNodeIdT nodeId)` (lines 169-184) on the
offset table `m_offsets`.  `m_offset + nodeId` is a 32-bit sum; the length is computed in
`size_t`.  `none` stands for an out-of-range subscript of `m_offsets`. -/
def GetSegmentsRange (m_offsets : List SegOffset) (nodeId : Nat) : Option (Nat × Nat) :=
  let index := lower_bound (fun o => decide (o.m_nodeId < nodeId)) m_offsets
  let start? : Option Nat :=
    if index > 0 then
      (m_offsets[index - 1]?).map (fun o => (o.m_offset + nodeId) % 4294967296)
    else some nodeId
  match start? with
  | none => none
  | some start =>
    if index < m_offsets.length then
      match m_offsets[index]? with
      | none => none
      | some o =>
        if o.m_nodeId = nodeId then
          some (start,
            ((o.m_offset + nodeId) % 4294967296 + 18446744073709551616 - start + 1)
              % 18446744073709551616)
        else some (start, 1)
    else some (start, 1)

/-- Method `OsrmFtSegMapping::GetNodeId(size_t segInd)` (lines 186-205).  The search key
`SegOffset(segInd, 0)` narrows `segInd` to 32 bits, the comparator adds in 32 bits, the
final difference is taken in `size_t` and narrowed to `OsrmNodeIdT`. -/
def GetNodeId (m_offsets : List SegOffset) (segInd : Nat) : Option Nat :=
  let index := lower_bound
    (fun o => decide ((o.m_nodeId + o.m_offset) % 4294967296 < segInd % 4294967296)) m_offsets
  let prevOffset? : Option Nat :=
    if index > 0 then (m_offsets[index - 1]?).map (fun o => o.m_offset) else some 0
  match prevOffset? with
  | none => none
  | some prevOffset =>
    if index < m_offsets.length then
      match m_offsets[index]? with
      | none => none
      | some o =>
        if segInd ≥ (prevOffset + o.m_nodeId) % 4294967296 ∧
            segInd ≤ (o.m_offset + o.m_nodeId) % 4294967296 then
          some o.m_nodeId
        else some (((segInd + 18446744073709551616 - prevOffset) % 18446744073709551616)
                      % 4294967296)
    else some (((segInd + 18446744073709551616 - prevOffset) % 18446744073709551616)
                  % 4294967296)

/-- Method `OsrmFtSegMapping::GetSegmentsCount()` (lines 98-101): the number of records
in the mapped segment region. -/
def GetSegmentsCount (segments : List FtSeg) : Nat := segments.length

/-- Method `OsrmFtSegMapping::GetSegVector(OsrmNodeIdT nodeId)` (lines 103-108).  The
returned pointer `GetSegments() + r.first` is the index `r.first`; the read `p->m_fid`
needs that index to be inside the region. -/
def GetSegVector (segments : List FtSeg) (m_offsets : List SegOffset) (nodeId : Nat) :
    Option (Nat × Nat) :=
  match GetSegmentsRange m_offsets nodeId with
  | none => none
  | some r =>
    match segments[r.1]? with
    | none => none
    | some p => some (r.1, if p.m_fid = INVALID_FID then 0 else r.2)

/-- The segments seen through a view `(p, count)` returned by `GetSegVector`:
`p[0], …, p[count - 1]`. -/
def viewSegments (segments : List FtSeg) (v : Nat × Nat) : List FtSeg :=
  (segments.drop v.1).take v.2

/-- Operation `SegmentsFor(nodeId)` of the spec: the list read through the view that
`GetSegVector` returns. -/
def SegmentsFor (segments : List FtSeg) (m_offsets : List SegOffset) (nodeId : Nat) :
    Option (List FtSeg) :=
  (GetSegVector segments m_offsets nodeId).map (viewSegments segments)

/-! ## Writer: `OsrmFtSegMappingBuilder` -/

/-- Modelled from the spec: the members of `OsrmFtSegMappingBuilder`, whose declaration
is not among the sources: the two growing arrays and the running cumulative offset.
`m_lastOffset` is wider than 32 bits (`Append` compares it with its own 32-bit narrowing
and fails when it "no longer fits the table's integer width").  It is below `2^32` after
every successful `Append` and a vector holds fewer than `2^61` eight-byte records, so the
addition in `Append` cannot wrap and is taken exactly. -/
structure OsrmFtSegMappingBuilder where
  m_segments : List FtSeg
  m_offsets : List SegOffset
  m_lastOffset : Nat
deriving DecidableEq, Repr

namespace OsrmFtSegMappingBuilder

/-- Constructor `OsrmFtSegMappingBuilder()` (lines 207-210). -/
def fresh : OsrmFtSegMappingBuilder := ⟨[], [], 0⟩

/-- Method `OsrmFtSegMappingBuilder::Append(osrmNodeId, data)` (lines 212-228).  The
sentinel is built by the checked constructor `FtSeg(-1, 0, 1)`; the `CHECK_EQUAL` on the
narrowed offset is fatal. -/
def Append (b : OsrmFtSegMappingBuilder) (osrmNodeId : Nat) (data : List FtSeg) :
    Option OsrmFtSegMappingBuilder :=
  let segments? : Option (List FtSeg) :=
    if data.isEmpty then
      (FtSeg.construct INVALID_FID 0 1).map (fun s => b.m_segments ++ [s])
    else some (b.m_segments ++ data)
  match segments? with
  | none => none
  | some segs =>
    if data.length > 1 then
      let m_lastOffset := b.m_lastOffset + (data.length - 1)
      let off := m_lastOffset % 4294967296
      if m_lastOffset = off then
        some ⟨segs, b.m_offsets ++ [⟨osrmNodeId, off⟩], m_lastOffset⟩
      else none
    else some ⟨segs, b.m_offsets, b.m_lastOffset⟩

/-- A sequence of calls `Append(nodeId, data)` in the given order; the first fatal
`CHECK` aborts the whole run. -/
def appendAll (b : OsrmFtSegMappingBuilder) :
    List (Nat × List FtSeg) → Option OsrmFtSegMappingBuilder
  | [] => some b
  | c :: cs =>
    match Append b c.1 c.2 with
    | none => none
    | some b1 => appendAll b1 cs

/-- A fresh builder driven with `Append(k, L_k)` for `k = 0, …, N-1` in that order. -/
def build (lists : List (List FtSeg)) : Option OsrmFtSegMappingBuilder :=
  appendAll fresh lists.enum

end OsrmFtSegMappingBuilder

/-- The sentinel segment `{featureId = ALL_BITS_SET, pointStart = 0, pointEnd = 1}`. -/
def SENTINEL : FtSeg := ⟨INVALID_FID, 0, 1⟩

open OsrmFtSegMappingBuilder

/-! ## Reference layout of the two arrays -/

/-- The slots one node occupies in the Segment Array: its own segments, or the single
sentinel when it has none. -/
def stored (data : List FtSeg) : List FtSeg :=
  if data.isEmpty then [SENTINEL] else data

/-- Running total of extra slots: the sum of `|L_j| - 1` (zero for an empty list) over the
first `n` lists. -/
def extraBefore (lists : List (List FtSeg)) (n : Nat) : Nat :=
  ((lists.take n).map (fun l => l.length - 1)).sum

/-- Reference start of node `k`: the sum over `j < k` of `max(|L_j|, 1)`. -/
def startRef (lists : List (List FtSeg)) (k : Nat) : Nat :=
  ((lists.take k).map (fun l => max l.length 1)).sum

/-- Total number of stored segments: the sum over all nodes of `max(|L_j|, 1)`. -/
def totalSegments (lists : List (List FtSeg)) : Nat :=
  (lists.map (fun l => max l.length 1)).sum

/-- A list is partitioned with respect to `comp` when the elements satisfying `comp`
precede all the others; this is the precondition of `std::lower_bound`. -/
def Partitioned {α : Type} (comp : α → Bool) (xs : List α) : Prop :=
  ∀ (i j : Nat) (x y : α),
    i ≤ j → xs[i]? = some x → xs[j]? = some y → comp y = true → comp x = true

/-- The entries a run of `Append` calls adds to the offset table when the running offset
is `acc` before the first call. -/
def tableOf (acc : Nat) : List (Nat × List FtSeg) → List SegOffset
  | [] => []
  | c :: cs =>
    (if 1 < c.2.length then [⟨c.1, acc + (c.2.length - 1)⟩] else []) ++
      tableOf (acc + (c.2.length - 1)) cs

/-- The offset table that belongs to the lists `L_0, …, L_{N-1}`: strictly ascending node
ids, and one entry `(k, extraBefore (k + 1))` for exactly the nodes `k` with more than one
segment. -/
def TableFor (lists : List (List FtSeg)) (offs : List SegOffset) : Prop :=
  offs.Pairwise (fun a b => a.m_nodeId < b.m_nodeId) ∧
  ∀ e, e ∈ offs ↔
    ∃ (k : Nat) (l : List FtSeg),
      lists[k]? = some l ∧ 1 < l.length ∧ e = ⟨k, extraBefore lists (k + 1)⟩

/-- Position `idx` splits the table at node `k`: the entries before it belong to smaller
node ids, the entries from it on to node ids that are at least `k`. -/
def SplitAt (offs : List SegOffset) (idx k : Nat) : Prop :=
  idx ≤ offs.length ∧
  (∀ (p : Nat) (x : SegOffset), p < idx → offs[p]? = some x → x.m_nodeId < k) ∧
  (∀ (p : Nat) (x : SegOffset), idx ≤ p → offs[p]? = some x → k ≤ x.m_nodeId)

/-- Running total of extra slots after the first `n` calls, in the words of the spec: the
sum of `length - 1` over those of the first `n` calls that get a table entry. -/
def runningExtra (calls : List (Nat × List FtSeg)) (n : Nat) : Nat :=
  (((calls.take n).filter (fun c => decide (1 < c.2.length))).map
    (fun c => c.2.length - 1)).sum

/-- The scenario of the spec: nodes `0..3` with one, two, no and one segment. -/
def scenario : List (List FtSeg) :=
  [[⟨5, 0, 3⟩], [⟨5, 3, 6⟩, ⟨5, 6, 9⟩], [], [⟨7, 0, 2⟩]]

/-- Two nodes whose segments no longer fit 32-bit indices: `2^32` copies of one segment
for node `0`, one segment for node `1`. -/
def oversized : List (List FtSeg) :=
  [List.replicate 4294967296 ⟨5, 0, 1⟩, [⟨7, 0, 1⟩]]

/-- The calls of the scenario of the spec, with their node ids. -/
def scenarioCalls : List (Nat × List FtSeg) :=
  [(0, [⟨5, 0, 3⟩]), (1, [⟨5, 3, 6⟩, ⟨5, 6, 9⟩]), (2, []), (3, [⟨7, 0, 2⟩])]

/-- The builder state the scenario of the spec ends in. -/
def scenarioBuilder : OsrmFtSegMappingBuilder :=
  ⟨[⟨5, 0, 3⟩, ⟨5, 3, 6⟩, ⟨5, 6, 9⟩, SENTINEL, ⟨7, 0, 2⟩], [⟨1, 1⟩], 1⟩

/-! ## Reverse lookup: `GetOsrmNode` -/

/-- The local constant `OsrmNodeIdT const INVALID = -1` of `GetOsrmNode`: all 32 bits
set. -/
def INVALID : Nat := 4294967295

/-- The `for` loop of `OsrmFtSegMapping::GetOsrmNode` (lines 140-166), entered at index `i`
with the segments from `i` on still to be scanned.  An `ASSERT_EQUAL` that does not hold
ends the run with `none`; `break` returns the two node ids found so far. -/
def GetOsrmNodeLoop (m_offsets : List SegOffset) (seg : FtSeg) :
    List FtSeg → Nat → Nat → Nat → Option (Nat × Nat)
  | [], _, forward, reverse => some (forward, reverse)
  | s :: rest, i, forward, reverse =>
    if s.m_fid ≠ seg.m_fid then
      GetOsrmNodeLoop m_offsets seg rest (i + 1) forward reverse
    else if s.m_pointStart ≤ s.m_pointEnd then
      if seg.m_pointStart ≥ s.m_pointStart ∧ seg.m_pointEnd ≤ s.m_pointEnd then
        if forward ≠ INVALID then none
        else
          match GetNodeId m_offsets i with
          | none => none
          | some n =>
            if reverse ≠ INVALID then some (n, reverse)
            else GetOsrmNodeLoop m_offsets seg rest (i + 1) n reverse
      else GetOsrmNodeLoop m_offsets seg rest (i + 1) forward reverse
    else
      if seg.m_pointStart ≥ s.m_pointEnd ∧ seg.m_pointEnd ≤ s.m_pointStart then
        if reverse ≠ INVALID then none
        else
          match GetNodeId m_offsets i with
          | none => none
          | some n =>
            if forward ≠ INVALID then some (forward, n)
            else GetOsrmNodeLoop m_offsets seg rest (i + 1) forward n
      else GetOsrmNodeLoop m_offsets seg rest (i + 1) forward reverse

/-- Method `OsrmFtSegMapping::GetOsrmNode(seg, forward, reverse)` (lines 131-167): the
entry assertion `ASSERT_LESS(seg.m_pointStart, seg.m_pointEnd)`, both outputs set to
`INVALID`, then the scan of the whole segment region from index `0`.  The result is the
pair `(forward, reverse)`. -/
def GetOsrmNode (segments : List FtSeg) (m_offsets : List SegOffset) (seg : FtSeg) :
    Option (Nat × Nat) :=
  if ¬ seg.m_pointStart < seg.m_pointEnd then none
  else GetOsrmNodeLoop m_offsets seg segments 0 INVALID INVALID

/-- A stored segment `s` is a forward owner of the query `q`: same feature, forward
direction, and its point range contains the range of `q`. -/
def isForwardOwner (q s : FtSeg) : Bool :=
  decide (s.m_fid = q.m_fid ∧ s.m_pointStart ≤ s.m_pointEnd ∧
    s.m_pointStart ≤ q.m_pointStart ∧ q.m_pointEnd ≤ s.m_pointEnd)

/-- A stored segment `s` is a reverse owner of the query `q`: same feature, reverse
direction, and its point range contains the range of `q`. -/
def isReverseOwner (q s : FtSeg) : Bool :=
  decide (s.m_fid = q.m_fid ∧ s.m_pointStart > s.m_pointEnd ∧
    s.m_pointEnd ≤ q.m_pointStart ∧ q.m_pointEnd ≤ s.m_pointStart)

/-- Same array up to segments of other features: position by position the two arrays hold
the same segment, or two segments that are both on a feature other than that of `q`. -/
def SameOnFeature (q : FtSeg) (segs segs1 : List FtSeg) : Prop :=
  List.Forall₂ (fun s t => s = t ∨ (s.m_fid ≠ q.m_fid ∧ t.m_fid ≠ q.m_fid)) segs segs1

/-- The cumulative offset stored just before position `idx` of the table, `0` at the
front. -/
def prevOffsetAt (offs : List SegOffset) : Nat → Nat
  | 0 => 0
  | i + 1 => ((offs[i]?).map SegOffset.m_offset).getD 0

/-- The decode of node `k` in unbounded arithmetic, read at position `idx` of the table:
start `prev + k`, and the length given by the entry at `idx` when it belongs to `k`. -/
def rangeAt (offs : List SegOffset) (idx k : Nat) : Nat × Nat :=
  match offs[idx]? with
  | some o =>
    if o.m_nodeId = k then (prevOffsetAt offs idx + k, o.m_offset - prevOffsetAt offs idx + 1)
    else (prevOffsetAt offs idx + k, 1)
  | none => (prevOffsetAt offs idx + k, 1)

/-- The smallest index, counted from `i` at the head of the list, whose segment satisfies
`p`. -/
def firstIndexFrom (p : FtSeg → Bool) : List FtSeg → Nat → Option Nat
  | [], _ => none
  | s :: rest, i => if p s then some i else firstIndexFrom p rest (i + 1)

/-- The node id expected for an owner found at index `j` (`GetNodeId(j)`), and `INVALID`
when there is no owner. -/
def ownerNode (offs : List SegOffset) : Option Nat → Option Nat
  | some j => GetNodeId offs j
  | none => some INVALID

/-- A reverse-lookup query: points `2..3` of feature `5`. -/
def lookupQuery : FtSeg := ⟨5, 2, 3⟩

/-- A segment array with one reverse owner of `lookupQuery` followed by two forward
owners. -/
def earlyExitSegments : List FtSeg := [⟨5, 9, 0⟩, ⟨5, 0, 9⟩, ⟨5, 1, 8⟩]

/-- A segment array with a segment of another feature followed by two forward owners of
`lookupQuery`. -/
def twoForwardSegments : List FtSeg := [⟨9, 0, 1⟩, ⟨5, 0, 9⟩, ⟨5, 0, 9⟩]

/-- An offset table on which `GetNodeId(1)` is the value `INVALID`: the 32-bit sum
`4294967294 + 2` wraps to `0`, so index `1` lies past the only entry and `1 - 2` is
narrowed to `2^32 - 1`. -/
def wrappingTable : List SegOffset := [⟨4294967294, 2⟩]

/-- Three calls with ascending node ids of which the first and the last get a table
entry. -/
def twoEntryCalls : List (Nat × List FtSeg) :=
  [(0, [⟨5, 0, 3⟩, ⟨5, 3, 6⟩]), (1, [⟨6, 0, 2⟩]), (3, [⟨7, 0, 2⟩, ⟨7, 2, 4⟩, ⟨7, 4, 6⟩])]

/-- The builder state after `twoEntryCalls`: table `[(0, 1), (3, 3)]`. -/
def twoEntryBuilder : OsrmFtSegMappingBuilder :=
  ⟨[⟨5, 0, 3⟩, ⟨5, 3, 6⟩, ⟨6, 0, 2⟩, ⟨7, 0, 2⟩, ⟨7, 2, 4⟩, ⟨7, 4, 6⟩], [⟨0, 1⟩, ⟨3, 3⟩], 3⟩

/-- Two calls with strictly increasing 32-bit node ids, two segments each, the second for
node `2^32 - 2`. -/
def wrappingCalls : List (Nat × List FtSeg) :=
  [(0, [⟨5, 0, 3⟩, ⟨5, 3, 6⟩]), (4294967294, [⟨7, 0, 2⟩, ⟨7, 2, 4⟩])]

/-- The builder state after `wrappingCalls`: table `[(0, 1), (2^32 - 2, 2)]`, whose 32-bit
sums `nodeId + cumulativeOffset` are `1` and `0`. -/
def wrappingBuilder : OsrmFtSegMappingBuilder :=
  ⟨[⟨5, 0, 3⟩, ⟨5, 3, 6⟩, ⟨7, 0, 2⟩, ⟨7, 2, 4⟩], [⟨0, 1⟩, ⟨4294967294, 2⟩], 2⟩

/-! ## Segments: construction, `Merge`, `IsIntersect` -/

theorem FtSeg.lo_le_hi (a : FtSeg) : a.lo ≤ a.hi := by
  unfold FtSeg.lo FtSeg.hi
  omega

theorem my_IsIntersect_iff (x0 x1 x2 x3 : Nat) :
    my_IsIntersect x0 x1 x2 x3 = true ↔ x2 ≤ x1 ∧ x0 ≤ x3 := by
  unfold my_IsIntersect
  simp

theorem FtSeg.touches_iff (a b : FtSeg) :
    FtSeg.Touches a b ↔ my_IsIntersect a.lo a.hi b.lo b.hi = true := by
  rw [my_IsIntersect_iff]
  have ha := a.lo_le_hi
  have hb := b.lo_le_hi
  constructor
  · rintro ⟨p, h1, h2, h3, h4⟩
    omega
  · rintro ⟨h1, h2⟩
    refine ⟨max a.lo b.lo, ?_, ?_, ?_, ?_⟩ <;> omega

theorem FtSeg.Merge_fst (a b : FtSeg) :
    (a.Merge b).1 = true ↔
      b.m_fid = a.m_fid ∧ b.dir = a.dir ∧ my_IsIntersect a.lo a.hi b.lo b.hi = true := by
  unfold FtSeg.Merge FtSeg.dir FtSeg.lo FtSeg.hi
  dsimp only
  split_ifs <;> simp_all

theorem FtSeg.Merge_snd_of_false (a b : FtSeg) (h : (a.Merge b).1 = false) :
    (a.Merge b).2 = a := by
  unfold FtSeg.Merge at h ⊢
  dsimp only at h ⊢
  split_ifs at h ⊢ <;> simp_all

theorem FtSeg.Merge_snd_of_true (a b : FtSeg) (h : (a.Merge b).1 = true) :
    (a.Merge b).2 =
      if a.dir then ⟨a.m_fid, min a.lo b.lo, max a.hi b.hi⟩
      else ⟨a.m_fid, max a.hi b.hi, min a.lo b.lo⟩ := by
  unfold FtSeg.Merge FtSeg.dir FtSeg.lo FtSeg.hi at *
  dsimp only at h ⊢
  split_ifs at h ⊢ <;> simp_all

theorem FtSeg.IsIntersect_iff (a b : FtSeg) :
    a.IsIntersect b = true ↔
      b.m_fid = a.m_fid ∧ my_IsIntersect a.lo a.hi b.lo b.hi = true := by
  unfold FtSeg.IsIntersect FtSeg.lo FtSeg.hi
  dsimp only
  split_ifs <;> simp_all

theorem FtSeg.dir_iff (a : FtSeg) : a.dir = true ↔ a.m_pointStart < a.m_pointEnd := by
  unfold FtSeg.dir
  simp

/-- C5. `a.Merge(b)` returns true exactly when the feature ids agree, the direction flags
agree and the two closed point intervals share a point.  On success the receiver keeps its
feature id and direction and spans `[min of the lower ends, max of the upper ends]`, with
start and end exchanged for a reverse segment; on failure the receiver is unchanged.  The
argument is read-only. -/
theorem Merge_contract (a b : FtSeg) :
    ((a.Merge b).1 = true ↔ b.m_fid = a.m_fid ∧ b.dir = a.dir ∧ FtSeg.Touches a b) ∧
    ((a.Merge b).1 = true →
      (a.Merge b).2.m_fid = a.m_fid ∧ (a.Merge b).2.dir = a.dir ∧
      (a.Merge b).2.lo = min a.lo b.lo ∧ (a.Merge b).2.hi = max a.hi b.hi ∧
      (a.dir = true → (a.Merge b).2.m_pointStart = min a.lo b.lo ∧
                       (a.Merge b).2.m_pointEnd = max a.hi b.hi) ∧
      (a.dir = false → (a.Merge b).2.m_pointStart = max a.hi b.hi ∧
                        (a.Merge b).2.m_pointEnd = min a.lo b.lo)) ∧
    ((a.Merge b).1 = false → (a.Merge b).2 = a) := by
  refine ⟨?_, ?_, FtSeg.Merge_snd_of_false a b⟩
  · rw [FtSeg.Merge_fst, FtSeg.touches_iff]
  · intro h
    rw [FtSeg.Merge_snd_of_true a b h]
    have ha := a.lo_le_hi
    have hb := b.lo_le_hi
    cases hd : a.dir
    · have hd2 : ¬ a.m_pointStart < a.m_pointEnd := by
        rw [← FtSeg.dir_iff, hd]; simp
      simp only [FtSeg.dir, FtSeg.lo, FtSeg.hi] at *
      simp
      try omega
    · have hd2 : a.m_pointStart < a.m_pointEnd := by
        rw [← FtSeg.dir_iff, hd]
      simp only [FtSeg.dir, FtSeg.lo, FtSeg.hi] at *
      simp
      omega

/-- C6. `a.Merge(b)` succeeds exactly when `b.Merge(a)` succeeds, and then both receivers
end with the same feature id, the same interval and the same direction (they are the same
segment). -/
theorem Merge_comm_outcome (a b : FtSeg) :
    (a.Merge b).1 = (b.Merge a).1 ∧
    ((a.Merge b).1 = true →
      (a.Merge b).2.m_fid = (b.Merge a).2.m_fid ∧
      (a.Merge b).2.lo = (b.Merge a).2.lo ∧ (a.Merge b).2.hi = (b.Merge a).2.hi ∧
      (a.Merge b).2.dir = (b.Merge a).2.dir ∧
      (a.Merge b).2 = (b.Merge a).2) := by
  have hiff : (a.Merge b).1 = true ↔ (b.Merge a).1 = true := by
    rw [FtSeg.Merge_fst, FtSeg.Merge_fst, my_IsIntersect_iff, my_IsIntersect_iff]
    constructor <;> rintro ⟨h1, h2, h3, h4⟩ <;> exact ⟨h1.symm, h2.symm, h4, h3⟩
  have heq : (a.Merge b).1 = (b.Merge a).1 := by
    cases h1 : (a.Merge b).1 <;> cases h2 : (b.Merge a).1 <;> simp_all
  refine ⟨heq, fun h => ?_⟩
  have h' : (b.Merge a).1 = true := hiff.1 h
  obtain ⟨hf, hd, -⟩ := (FtSeg.Merge_fst a b).1 h
  have hres : (a.Merge b).2 = (b.Merge a).2 := by
    rw [FtSeg.Merge_snd_of_true a b h, FtSeg.Merge_snd_of_true b a h', hd, hf,
      Nat.min_comm a.lo b.lo, Nat.max_comm a.hi b.hi]
  rw [hres]
  simp

/-- C7. `IsIntersect` is symmetric, and it holds exactly when the feature ids are equal
and the direction-ignoring closed point intervals share a point. -/
theorem IsIntersect_symm_iff (a b : FtSeg) :
    a.IsIntersect b = b.IsIntersect a ∧
    (a.IsIntersect b = true ↔ a.m_fid = b.m_fid ∧ FtSeg.Touches a b) := by
  have hiff : a.IsIntersect b = true ↔ b.IsIntersect a = true := by
    rw [FtSeg.IsIntersect_iff, FtSeg.IsIntersect_iff, my_IsIntersect_iff, my_IsIntersect_iff]
    constructor <;> rintro ⟨h1, h3, h4⟩ <;> exact ⟨h1.symm, h4, h3⟩
  constructor
  · cases h1 : a.IsIntersect b <;> cases h2 : b.IsIntersect a <;> simp_all
  · rw [FtSeg.IsIntersect_iff, FtSeg.touches_iff]
    constructor <;> rintro ⟨h1, h2⟩ <;> exact ⟨h1.symm, h2⟩

/-- C8. `a.Merge(b)` returns true exactly when `a.IsIntersect(b)` holds and the two
direction flags agree; and there are segments of opposite direction that intersect but do
not merge. -/
theorem Merge_iff_IsIntersect_and_dir :
    (∀ a b : FtSeg, (a.Merge b).1 = true ↔ (a.IsIntersect b = true ∧ a.dir = b.dir)) ∧
    (∃ a b : FtSeg, a.dir ≠ b.dir ∧ a.IsIntersect b = true ∧ (a.Merge b).1 = false) := by
  constructor
  · intro a b
    rw [FtSeg.Merge_fst, FtSeg.IsIntersect_iff]
    constructor
    · rintro ⟨h1, h2, h3⟩
      exact ⟨⟨h1, h3⟩, h2.symm⟩
    · rintro ⟨⟨h1, h3⟩, h2⟩
      exact ⟨h1, h2.symm, h3⟩
  · exact ⟨⟨5, 0, 3⟩, ⟨5, 4, 2⟩, by decide, by decide, by decide⟩

/-- C9. Construction fails exactly when the two point indices are equal or one of them
does not fit in 16 bits; otherwise it yields the segment holding the three arguments
unchanged, whose ends differ and whose direction flag is the sign of `pe - ps`.  The
sentinel `(2^32 - 1, 0, 1)` is constructible. -/
theorem construct_contract (fid ps pe : Nat) :
    (FtSeg.construct fid ps pe = none ↔ (ps = pe ∨ ps ≥ 65536 ∨ pe ≥ 65536)) ∧
    (¬ (ps = pe ∨ ps ≥ 65536 ∨ pe ≥ 65536) →
      FtSeg.construct fid ps pe = some ⟨fid, ps, pe⟩) ∧
    (∀ s, FtSeg.construct fid ps pe = some s →
      s.m_fid = fid ∧ s.m_pointStart = ps ∧ s.m_pointEnd = pe ∧
      s.m_pointStart ≠ s.m_pointEnd ∧
      (s.dir = true ↔ ps < pe) ∧ (s.dir = false ↔ pe < ps) ∧
      Int.sign ((pe : Int) - (ps : Int)) = (if s.dir then 1 else -1)) ∧
    FtSeg.construct 4294967295 0 1 = some SENTINEL := by
  have key : FtSeg.construct fid ps pe =
      if ps = pe ∨ ps ≥ 65536 ∨ pe ≥ 65536 then none else some ⟨fid, ps, pe⟩ := by
    unfold FtSeg.construct
    dsimp only
    split_ifs <;>
      first
      | rfl
      | (exfalso; omega)
      | (have e1 : ps % 65536 = ps := by omega
         have e2 : pe % 65536 = pe := by omega
         rw [e1, e2])
  refine ⟨?_, ?_, ?_, by decide⟩
  · rw [key]
    split_ifs with h <;> simp [h]
  · intro h
    rw [key, if_neg h]
  · intro s hs
    rw [key] at hs
    split_ifs at hs with h
    have hs2 : s = ⟨fid, ps, pe⟩ := by simpa using hs.symm
    subst hs2
    have hne : ps ≠ pe := by omega
    refine ⟨rfl, rfl, rfl, hne, ?_, ?_, ?_⟩
    · simp [FtSeg.dir]
    · simp only [FtSeg.dir]
      simp
      omega
    · by_cases hlt : ps < pe
      · have : (0 : Int) < (pe : Int) - (ps : Int) := by omega
        simp [FtSeg.dir, hlt, Int.sign_eq_one_of_pos this]
      · have : (pe : Int) - (ps : Int) < 0 := by omega
        simp [FtSeg.dir, hlt, Int.sign_eq_neg_one_of_neg this]

/-! ## `std::lower_bound` on a partitioned range -/

theorem lowerBoundLoop_spec {α : Type} (comp : α → Bool) (xs : List α)
    (hpart : Partitioned comp xs) :
    ∀ fuel first len, len ≤ fuel → first + len ≤ xs.length →
      (∀ i x, i < first → xs[i]? = some x → comp x = true) →
      (∀ i x, first + len ≤ i → xs[i]? = some x → comp x = false) →
      (lowerBoundLoop comp xs fuel first len ≤ xs.length ∧
       (∀ i x, i < lowerBoundLoop comp xs fuel first len → xs[i]? = some x → comp x = true) ∧
       (∀ i x, lowerBoundLoop comp xs fuel first len ≤ i → xs[i]? = some x →
          comp x = false)) := by
  intro fuel
  induction fuel with
  | zero =>
    intro first len h1 h2 h3 h4
    have hl : len = 0 := by omega
    subst hl
    simp only [lowerBoundLoop]
    exact ⟨by omega, h3, fun i x hi hx => h4 i x (by omega) hx⟩
  | succ n ih =>
    intro first len h1 h2 h3 h4
    by_cases hl : len = 0
    · subst hl
      simp only [lowerBoundLoop, if_true]
      exact ⟨by omega, h3, fun i x hi hx => h4 i x (by omega) hx⟩
    · have hmid : first + len / 2 < xs.length := by omega
      have hget : xs[first + len / 2]? = some xs[first + len / 2] :=
        List.getElem?_eq_getElem hmid
      simp only [lowerBoundLoop, hl, if_false, hget]
      cases hc : comp xs[first + len / 2]
      · simp only [Bool.false_eq_true, if_false]
        apply ih first (len / 2) (by omega) (by omega) h3
        intro i x hi hx
        cases hcx : comp x
        · rfl
        · have := hpart (first + len / 2) i _ x hi hget hx hcx
          rw [hc] at this
          exact absurd this (by simp)
      · simp only [if_true]
        apply ih (first + len / 2 + 1) (len - len / 2 - 1) (by omega) (by omega)
        · intro i x hi hx
          exact hpart i (first + len / 2) x _ (by omega) hx hget hc
        · intro i x hi hx
          exact h4 i x (by omega) hx

theorem lower_bound_spec {α : Type} (comp : α → Bool) (xs : List α)
    (hpart : Partitioned comp xs) :
    lower_bound comp xs ≤ xs.length ∧
    (∀ i x, i < lower_bound comp xs → xs[i]? = some x → comp x = true) ∧
    (∀ i x, lower_bound comp xs ≤ i → xs[i]? = some x → comp x = false) := by
  unfold lower_bound
  apply lowerBoundLoop_spec comp xs hpart xs.length 0 xs.length (le_refl _) (by omega)
  · intro i x hi
    omega
  · intro i x hi hx
    have : i < xs.length := (List.getElem?_eq_some.1 hx).1
    omega

/-! ## The builder in closed form -/

theorem Append_eq (b : OsrmFtSegMappingBuilder) (nodeId : Nat) (data : List FtSeg) :
    b.Append nodeId data =
      if 1 < data.length ∧ 4294967296 ≤ b.m_lastOffset + (data.length - 1) then none
      else some ⟨b.m_segments ++ stored data,
                 b.m_offsets ++ tableOf b.m_lastOffset [(nodeId, data)],
                 b.m_lastOffset + (data.length - 1)⟩ := by
  have hs : FtSeg.construct INVALID_FID 0 1 = some SENTINEL := by decide
  cases data with
  | nil => simp [OsrmFtSegMappingBuilder.Append, hs, stored, tableOf]
  | cons x t =>
    cases t with
    | nil => simp [OsrmFtSegMappingBuilder.Append, stored, tableOf]
    | cons y t =>
      simp only [OsrmFtSegMappingBuilder.Append, stored, tableOf, List.isEmpty_cons,
        Bool.false_eq_true, if_false, List.length_cons, List.append_nil]
      have h1 : 1 < t.length + 1 + 1 := by omega
      simp only [h1, gt_iff_lt, if_true, true_and]
      by_cases h2 : 4294967296 ≤ b.m_lastOffset + (t.length + 1 + 1 - 1)
      · have h3 : ¬ b.m_lastOffset + (t.length + 1 + 1 - 1) =
            (b.m_lastOffset + (t.length + 1 + 1 - 1)) % 4294967296 := by omega
        simp only [h2, h3, if_true, if_false]
      · have h3 : b.m_lastOffset + (t.length + 1 + 1 - 1) =
            (b.m_lastOffset + (t.length + 1 + 1 - 1)) % 4294967296 := by omega
        rw [if_pos h3, if_neg h2, ← h3]

theorem appendAll_some (cs : List (Nat × List FtSeg)) :
    ∀ (b b1 : OsrmFtSegMappingBuilder), appendAll b cs = some b1 →
      b1 = ⟨b.m_segments ++ (cs.map (fun c => stored c.2)).flatten,
            b.m_offsets ++ tableOf b.m_lastOffset cs,
            b.m_lastOffset + (cs.map (fun c => c.2.length - 1)).sum⟩ := by
  induction cs with
  | nil =>
    intro b b1 h
    simp only [appendAll, Option.some.injEq] at h
    subst h
    simp [tableOf]
  | cons c cs ih =>
    intro b b1 h
    simp only [appendAll, Append_eq] at h
    split_ifs at h with hc
    have := ih _ _ h
    rw [this]
    simp [tableOf, Nat.add_assoc]

theorem appendAll_of_fits (cs : List (Nat × List FtSeg)) :
    ∀ (b : OsrmFtSegMappingBuilder),
      b.m_lastOffset + (cs.map (fun c => c.2.length - 1)).sum < 4294967296 →
      appendAll b cs =
        some ⟨b.m_segments ++ (cs.map (fun c => stored c.2)).flatten,
              b.m_offsets ++ tableOf b.m_lastOffset cs,
              b.m_lastOffset + (cs.map (fun c => c.2.length - 1)).sum⟩ := by
  induction cs with
  | nil =>
    intro b _
    simp [appendAll, tableOf]
  | cons c cs ih =>
    intro b h
    simp only [List.map_cons, List.sum_cons] at h
    have hc : ¬ (1 < c.2.length ∧ 4294967296 ≤ b.m_lastOffset + (c.2.length - 1)) := by omega
    simp only [appendAll, Append_eq, if_neg hc]
    rw [ih _ (by simp only []; omega)]
    simp [tableOf, Nat.add_assoc]

theorem mem_tableOf (cs : List (Nat × List FtSeg)) :
    ∀ (acc : Nat) (e : SegOffset), e ∈ tableOf acc cs ↔
      ∃ (i : Nat) (c : Nat × List FtSeg), cs[i]? = some c ∧ 1 < c.2.length ∧
        e = ⟨c.1, acc + extraBefore (cs.map Prod.snd) (i + 1)⟩ := by
  induction cs with
  | nil =>
    intro acc e
    simp [tableOf]
  | cons c cs ih =>
    intro acc e
    simp only [tableOf, List.mem_append, ih]
    constructor
    · rintro (h | ⟨i, c1, h1, h2, h3⟩)
      · split_ifs at h with hc
        · refine ⟨0, c, by simp, hc, ?_⟩
          simp only [List.mem_singleton] at h
          rw [h]
          simp [extraBefore]
        · simp at h
      · refine ⟨i + 1, c1, by simpa using h1, h2, ?_⟩
        rw [h3]
        simp [extraBefore, Nat.add_assoc]
    · rintro ⟨i, c1, h1, h2, h3⟩
      cases i with
      | zero =>
        left
        simp only [List.getElem?_cons_zero, Option.some.injEq] at h1
        subst h1
        rw [if_pos h2, h3]
        simp [extraBefore]
      | succ i =>
        right
        refine ⟨i, c1, by simpa using h1, h2, ?_⟩
        rw [h3]
        simp [extraBefore, Nat.add_assoc]

theorem tableOf_nodeIds_sublist (cs : List (Nat × List FtSeg)) :
    ∀ acc : Nat, ((tableOf acc cs).map SegOffset.m_nodeId).Sublist (cs.map Prod.fst) := by
  induction cs with
  | nil =>
    intro acc
    simp [tableOf]
  | cons c cs ih =>
    intro acc
    simp only [tableOf, List.map_append, List.map_cons]
    split_ifs
    · simpa using (ih (acc + (c.2.length - 1))).cons₂ c.1
    · simpa using (ih (acc + (c.2.length - 1))).cons c.1

theorem tableOf_pairwise (cs : List (Nat × List FtSeg)) (acc : Nat)
    (h : cs.Pairwise (fun a b => a.1 < b.1)) :
    (tableOf acc cs).Pairwise (fun a b => a.m_nodeId < b.m_nodeId) := by
  have h1 : (cs.map Prod.fst).Pairwise (· < ·) := List.pairwise_map.2 h
  have h2 := h1.sublist (tableOf_nodeIds_sublist cs acc)
  exact List.pairwise_map.1 h2

theorem enum_pairwise_fst {α : Type} (ls : List α) :
    ls.enum.Pairwise (fun a b => a.1 < b.1) := by
  apply List.pairwise_map.1
  rw [List.enum_map_fst]
  exact List.pairwise_lt_range _

theorem tableFor_enum (ls : List (List FtSeg)) : TableFor ls (tableOf 0 ls.enum) := by
  refine ⟨tableOf_pairwise _ _ (enum_pairwise_fst ls), fun e => ?_⟩
  rw [mem_tableOf, List.enum_map_snd]
  constructor
  · rintro ⟨i, c, h1, h2, h3⟩
    rw [List.getElem?_enum] at h1
    cases hl : ls[i]? with
    | none => simp [hl] at h1
    | some l =>
      simp only [hl, Option.map_some', Option.some.injEq] at h1
      subst h1
      exact ⟨i, l, hl, h2, by simpa using h3⟩
  · rintro ⟨k, l, h1, h2, h3⟩
    refine ⟨k, (k, l), ?_, h2, by simpa using h3⟩
    rw [List.getElem?_enum, h1]
    rfl

/-! ## Arithmetic of the reference layout -/

theorem sum_max_eq (ls : List (List FtSeg)) :
    (ls.map (fun l => max l.length 1)).sum =
      ls.length + (ls.map (fun l => l.length - 1)).sum := by
  induction ls with
  | nil => simp
  | cons l ls ih =>
    simp only [List.map_cons, List.sum_cons, List.length_cons, ih]
    omega

theorem startRef_eq (ls : List (List FtSeg)) (k : Nat) (hk : k ≤ ls.length) :
    startRef ls k = k + extraBefore ls k := by
  unfold startRef extraBefore
  rw [sum_max_eq, List.length_take]
  omega

theorem totalSegments_eq (ls : List (List FtSeg)) :
    totalSegments ls = ls.length + extraBefore ls ls.length := by
  unfold totalSegments extraBefore
  rw [List.take_length, sum_max_eq]

theorem extraBefore_succ (ls : List (List FtSeg)) (k : Nat) (l : List FtSeg)
    (hk : ls[k]? = some l) :
    extraBefore ls (k + 1) = extraBefore ls k + (l.length - 1) := by
  unfold extraBefore
  rw [List.take_succ, hk]
  simp

theorem extraBefore_succ_none (ls : List (List FtSeg)) (k : Nat) (hk : ls[k]? = none) :
    extraBefore ls (k + 1) = extraBefore ls k := by
  unfold extraBefore
  rw [List.take_succ, hk]
  simp

theorem extraBefore_step_le (ls : List (List FtSeg)) (k : Nat) :
    extraBefore ls k ≤ extraBefore ls (k + 1) := by
  cases h : ls[k]? with
  | none => rw [extraBefore_succ_none ls k h]
  | some l => rw [extraBefore_succ ls k l h]; omega

theorem extraBefore_mono (ls : List (List FtSeg)) (m n : Nat) (h : m ≤ n) :
    extraBefore ls m ≤ extraBefore ls n := by
  induction n with
  | zero =>
    have : m = 0 := by omega
    subst this
    exact le_refl _
  | succ n ih =>
    by_cases hm : m = n + 1
    · subst hm
      exact le_refl _
    · exact le_trans (ih (by omega)) (extraBefore_step_le ls n)

theorem extraBefore_const (ls : List (List FtSeg)) (m n : Nat) (h : m ≤ n)
    (hone : ∀ (j : Nat) (l : List FtSeg), m ≤ j → j < n → ls[j]? = some l → l.length ≤ 1) :
    extraBefore ls n = extraBefore ls m := by
  induction n with
  | zero =>
    have : m = 0 := by omega
    subst this
    rfl
  | succ n ih =>
    by_cases hm : m = n + 1
    · subst hm
      rfl
    · have ih1 := ih (by omega) (fun j l h1 h2 h3 => hone j l h1 (by omega) h3)
      cases hl : ls[n]? with
      | none => rw [extraBefore_succ_none ls n hl, ih1]
      | some l =>
        have := hone n l (by omega) (by omega) hl
        rw [extraBefore_succ ls n l hl, ih1]
        omega

theorem extraBefore_zero (ls : List (List FtSeg)) : extraBefore ls 0 = 0 := by
  simp [extraBefore]

theorem extraBefore_le_total (ls : List (List FtSeg)) (k : Nat) :
    extraBefore ls k ≤ extraBefore ls ls.length := by
  by_cases h : k ≤ ls.length
  · exact extraBefore_mono ls k ls.length h
  · unfold extraBefore
    rw [List.take_of_length_le (by omega), List.take_length]

/-! ## Positions in a strictly ascending table -/

theorem nodeId_lt_of_pairwise (offs : List SegOffset)
    (h : offs.Pairwise (fun a b => a.m_nodeId < b.m_nodeId))
    (p q : Nat) (x y : SegOffset) (hpq : p < q)
    (hx : offs[p]? = some x) (hy : offs[q]? = some y) : x.m_nodeId < y.m_nodeId := by
  obtain ⟨hp, rfl⟩ := List.getElem?_eq_some.1 hx
  obtain ⟨hq, rfl⟩ := List.getElem?_eq_some.1 hy
  exact List.pairwise_iff_getElem.1 h p q hp hq hpq

theorem nodeId_le_of_pairwise (offs : List SegOffset)
    (h : offs.Pairwise (fun a b => a.m_nodeId < b.m_nodeId))
    (p q : Nat) (x y : SegOffset) (hpq : p ≤ q)
    (hx : offs[p]? = some x) (hy : offs[q]? = some y) : x.m_nodeId ≤ y.m_nodeId := by
  by_cases hpq2 : p = q
  · subst hpq2
    rw [hx] at hy
    cases hy
    exact le_refl _
  · exact le_of_lt (nodeId_lt_of_pairwise offs h p q x y (by omega) hx hy)

theorem TableFor.entry_pos {ls : List (List FtSeg)} {offs : List SegOffset}
    (hT : TableFor ls offs) (k : Nat) (l : List FtSeg) (hk : ls[k]? = some l)
    (hl : 1 < l.length) :
    ∃ p : Nat, offs[p]? = some ⟨k, extraBefore ls (k + 1)⟩ :=
  List.mem_iff_getElem?.1 ((hT.2 _).2 ⟨k, l, hk, hl, rfl⟩)

theorem TableFor.entry_of_get {ls : List (List FtSeg)} {offs : List SegOffset}
    (hT : TableFor ls offs) (p : Nat) (e : SegOffset) (he : offs[p]? = some e) :
    ∃ (k : Nat) (l : List FtSeg),
      ls[k]? = some l ∧ 1 < l.length ∧ e = ⟨k, extraBefore ls (k + 1)⟩ :=
  (hT.2 e).1 (List.mem_iff_getElem?.2 ⟨p, he⟩)

theorem TableFor.prevOffset {ls : List (List FtSeg)} {offs : List SegOffset}
    (hT : TableFor ls offs) (idx k : Nat) (hs : SplitAt offs idx k) :
    (if idx > 0 then (offs[idx - 1]?).map (fun o => o.m_offset) else some 0) =
      some (extraBefore ls k) := by
  obtain ⟨hlen, hlt, hge⟩ := hs
  by_cases hidx : idx > 0
  · rw [if_pos hidx]
    have hin : idx - 1 < offs.length := by omega
    have hget : offs[idx - 1]? = some offs[idx - 1] := List.getElem?_eq_getElem hin
    obtain ⟨j, lj, hj, hjl, hje⟩ := hT.entry_of_get _ _ hget
    have hjk : j < k := by
      have := hlt (idx - 1) _ (by omega) hget
      rw [hje] at this
      exact this
    have hconst : extraBefore ls k = extraBefore ls (j + 1) := by
      apply extraBefore_const ls (j + 1) k (by omega)
      intro m l hm1 hm2 hml
      by_contra hcon
      obtain ⟨p, hp⟩ := hT.entry_pos m l hml (by omega)
      by_cases hpi : p < idx
      · have := nodeId_le_of_pairwise offs hT.1 p (idx - 1) _ _ (by omega) hp hget
        rw [hje] at this
        simp only at this
        omega
      · have := hge p _ (by omega) hp
        simp only at this
        omega
    rw [hget, hje, hconst]
    rfl
  · rw [if_neg hidx]
    have hconst : extraBefore ls k = extraBefore ls 0 := by
      apply extraBefore_const ls 0 k (by omega)
      intro m l _ hm2 hml
      by_contra hcon
      obtain ⟨p, hp⟩ := hT.entry_pos m l hml (by omega)
      have := hge p _ (by omega) hp
      simp only at this
      omega
    rw [hconst, extraBefore_zero]

theorem TableFor.own_entry {ls : List (List FtSeg)} {offs : List SegOffset}
    (hT : TableFor ls offs) (idx k : Nat) (hs : SplitAt offs idx k)
    (l : List FtSeg) (hk : ls[k]? = some l) (hl : 1 < l.length) :
    idx < offs.length ∧ offs[idx]? = some ⟨k, extraBefore ls (k + 1)⟩ := by
  obtain ⟨hlen, hlt, hge⟩ := hs
  obtain ⟨p, hp⟩ := hT.entry_pos k l hk hl
  have hplen : p < offs.length := (List.getElem?_eq_some.1 hp).1
  have h1 : idx ≤ p := by
    by_contra hcon
    have := hlt p _ (by omega) hp
    simp only at this
    omega
  have h2 : p ≤ idx := by
    by_contra hcon
    have hin : idx < offs.length := by omega
    have hget : offs[idx]? = some offs[idx] := List.getElem?_eq_getElem hin
    have h3 := nodeId_lt_of_pairwise offs hT.1 idx p _ _ (by omega) hget hp
    have h4 := hge idx _ (le_refl _) hget
    simp only at h3
    omega
  have : p = idx := by omega
  subst this
  exact ⟨hplen, hp⟩

theorem TableFor.no_own_entry {ls : List (List FtSeg)} {offs : List SegOffset}
    (hT : TableFor ls offs) (idx k : Nat) (hs : SplitAt offs idx k)
    (l : List FtSeg) (hk : ls[k]? = some l) (hl : l.length ≤ 1)
    (y : SegOffset) (hy : offs[idx]? = some y) : k < y.m_nodeId := by
  obtain ⟨hlen, hlt, hge⟩ := hs
  have h1 := hge idx y (le_refl _) hy
  obtain ⟨j, lj, hj, hjl, hje⟩ := hT.entry_of_get _ _ hy
  rw [hje] at h1 ⊢
  simp only at h1 ⊢
  by_contra hcon
  have : j = k := by omega
  subst this
  rw [hk] at hj
  cases hj
  omega

/-! ## Decoding a table written by the builder -/

theorem nodeId_partitioned (offs : List SegOffset)
    (hpw : offs.Pairwise (fun a b => a.m_nodeId < b.m_nodeId)) (k : Nat) :
    Partitioned (fun o : SegOffset => decide (o.m_nodeId < k)) offs := by
  intro i j x y hij hx hy hc
  have := nodeId_le_of_pairwise offs hpw i j x y hij hx hy
  simp only [decide_eq_true_eq] at hc ⊢
  omega

theorem GetSegmentsRange_split (offs : List SegOffset)
    (hpw : offs.Pairwise (fun a b => a.m_nodeId < b.m_nodeId)) (k : Nat) :
    SplitAt offs (lower_bound (fun o : SegOffset => decide (o.m_nodeId < k)) offs) k := by
  obtain ⟨h1, h2, h3⟩ := lower_bound_spec _ offs (nodeId_partitioned offs hpw k)
  refine ⟨h1, ?_, ?_⟩
  · intro p x hp hx
    simpa using h2 p x hp hx
  · intro p x hp hx
    simpa using h3 p x hp hx

theorem layout_bounds (ls : List (List FtSeg)) (k : Nat) (l : List FtSeg)
    (hk : ls[k]? = some l) :
    k < ls.length ∧ startRef ls k = k + extraBefore ls k ∧
    extraBefore ls (k + 1) = extraBefore ls k + (l.length - 1) ∧
    startRef ls (k + 1) = startRef ls k + max l.length 1 ∧
    startRef ls (k + 1) ≤ totalSegments ls := by
  have hkN : k < ls.length := (List.getElem?_eq_some.1 hk).1
  have h1 := startRef_eq ls k (by omega)
  have h2 := extraBefore_succ ls k l hk
  have h3 := startRef_eq ls (k + 1) (by omega)
  have h4 := extraBefore_mono ls (k + 1) ls.length (by omega)
  have h5 := totalSegments_eq ls
  refine ⟨hkN, h1, h2, ?_, ?_⟩ <;> omega

theorem GetSegmentsRange_build (ls : List (List FtSeg)) (offs : List SegOffset)
    (hT : TableFor ls offs) (hfit : totalSegments ls ≤ 4294967296)
    (k : Nat) (l : List FtSeg) (hk : ls[k]? = some l) :
    GetSegmentsRange offs k = some (startRef ls k, max l.length 1) := by
  obtain ⟨hkN, hst, hsucc, hnext, htot⟩ := layout_bounds ls k l hk
  have hs := GetSegmentsRange_split offs hT.1 k
  have hprev := hT.prevOffset _ k hs
  have hown := hT.own_entry _ k hs l hk
  have hnown := hT.no_own_entry _ k hs l hk
  unfold GetSegmentsRange
  dsimp only
  generalize lower_bound (fun o : SegOffset => decide (o.m_nodeId < k)) offs = idx at *
  have hstart : (if idx > 0 then
      (offs[idx - 1]?).map (fun o => (o.m_offset + k) % 4294967296) else some k) =
      some (startRef ls k) := by
    by_cases hidx : idx > 0
    · rw [if_pos hidx] at hprev ⊢
      cases ho : offs[idx - 1]? with
      | none => simp [ho] at hprev
      | some o =>
        simp only [ho, Option.map_some', Option.some.injEq] at hprev ⊢
        rw [hprev]
        omega
    · rw [if_neg hidx] at hprev ⊢
      simp only [Option.some.injEq] at hprev ⊢
      omega
  rw [hstart]
  dsimp only
  by_cases hl : 1 < l.length
  · obtain ⟨hin, hget⟩ := hown hl
    rw [if_pos hin, hget]
    simp only [if_true, Option.some.injEq, Prod.mk.injEq, true_and]
    omega
  · have hmax : max l.length 1 = 1 := by omega
    rw [hmax]
    by_cases hin : idx < offs.length
    · rw [if_pos hin]
      have hget : offs[idx]? = some offs[idx] := List.getElem?_eq_getElem hin
      have := hnown (by omega) _ hget
      rw [hget]
      simp only
      rw [if_neg (by omega)]
    · rw [if_neg hin]

theorem startRef_zero (ls : List (List FtSeg)) : startRef ls 0 = 0 := by
  simp [startRef]

theorem totalSegments_eq_startRef (ls : List (List FtSeg)) :
    totalSegments ls = startRef ls ls.length := by
  unfold totalSegments startRef
  rw [List.take_length]

theorem owner_exists (ls : List (List FtSeg)) (i : Nat) (hi : i < totalSegments ls) :
    ∃ (k : Nat) (l : List FtSeg),
      ls[k]? = some l ∧ startRef ls k ≤ i ∧ i < startRef ls (k + 1) := by
  have key : ∀ n, n ≤ ls.length → i < startRef ls n →
      ∃ (k : Nat) (l : List FtSeg),
        ls[k]? = some l ∧ startRef ls k ≤ i ∧ i < startRef ls (k + 1) := by
    intro n
    induction n with
    | zero =>
      intro _ h
      rw [startRef_zero] at h
      omega
    | succ n ih =>
      intro hn h
      by_cases hlt : i < startRef ls n
      · exact ih (by omega) hlt
      · exact ⟨n, ls[n], List.getElem?_eq_getElem (by omega), by omega, h⟩
  exact key ls.length (le_refl _) (by rw [← totalSegments_eq_startRef]; exact hi)

theorem TableFor.comp_iff {ls : List (List FtSeg)} {offs : List SegOffset}
    (hT : TableFor ls offs) (hfit : totalSegments ls ≤ 4294967296)
    (i k : Nat) (l : List FtSeg) (hk : ls[k]? = some l)
    (h1 : startRef ls k ≤ i) (h2 : i < startRef ls (k + 1))
    (p : Nat) (x : SegOffset) (hx : offs[p]? = some x) :
    (x.m_nodeId + x.m_offset) % 4294967296 < i % 4294967296 ↔ x.m_nodeId < k := by
  obtain ⟨hkN, hst, hsucc, hnext, htot⟩ := layout_bounds ls k l hk
  obtain ⟨j, lj, hj, hjl, hje⟩ := hT.entry_of_get p x hx
  obtain ⟨hjN, hjst, hjsucc, hjnext, hjtot⟩ := layout_bounds ls j lj hj
  have hnextk := startRef_eq ls (k + 1) (by omega)
  have hnextj := startRef_eq ls (j + 1) (by omega)
  rw [hje]
  simp only
  have e1 : (j + extraBefore ls (j + 1)) % 4294967296 = j + extraBefore ls (j + 1) :=
    Nat.mod_eq_of_lt (by omega)
  have e2 : i % 4294967296 = i := Nat.mod_eq_of_lt (by omega)
  rw [e1, e2]
  constructor
  · intro hlt
    by_contra hcon
    have := extraBefore_mono ls (k + 1) (j + 1) (by omega)
    omega
  · intro hlt
    have := extraBefore_mono ls (j + 1) k (by omega)
    omega

theorem GetNodeId_split (ls : List (List FtSeg)) (offs : List SegOffset)
    (hT : TableFor ls offs) (hfit : totalSegments ls ≤ 4294967296)
    (i k : Nat) (l : List FtSeg) (hk : ls[k]? = some l)
    (h1 : startRef ls k ≤ i) (h2 : i < startRef ls (k + 1)) :
    SplitAt offs
      (lower_bound (fun o : SegOffset =>
        decide ((o.m_nodeId + o.m_offset) % 4294967296 < i % 4294967296)) offs) k := by
  have hiff := hT.comp_iff hfit i k l hk h1 h2
  have hpart : Partitioned (fun o : SegOffset =>
      decide ((o.m_nodeId + o.m_offset) % 4294967296 < i % 4294967296)) offs := by
    intro a b x y hab hx hy hc
    have := nodeId_le_of_pairwise offs hT.1 a b x y hab hx hy
    simp only [decide_eq_true_eq] at hc ⊢
    rw [hiff a x hx]
    rw [hiff b y hy] at hc
    omega
  obtain ⟨g1, g2, g3⟩ := lower_bound_spec _ offs hpart
  refine ⟨g1, ?_, ?_⟩
  · intro p x hp hx
    have := g2 p x hp hx
    simp only [decide_eq_true_eq] at this
    exact (hiff p x hx).1 this
  · intro p x hp hx
    have := g3 p x hp hx
    simp only [decide_eq_false_iff_not] at this
    rw [hiff p x hx] at this
    omega

theorem GetNodeId_build (ls : List (List FtSeg)) (offs : List SegOffset)
    (hT : TableFor ls offs) (hfit : totalSegments ls ≤ 4294967296)
    (i k : Nat) (l : List FtSeg) (hk : ls[k]? = some l)
    (h1 : startRef ls k ≤ i) (h2 : i < startRef ls (k + 1)) :
    GetNodeId offs i = some k := by
  obtain ⟨hkN, hst, hsucc, hnext, htot⟩ := layout_bounds ls k l hk
  have hs := GetNodeId_split ls offs hT hfit i k l hk h1 h2
  have hprev := hT.prevOffset _ k hs
  have hown := hT.own_entry _ k hs l hk
  have hnown := hT.no_own_entry _ k hs l hk
  have hEk := extraBefore_le_total ls k
  have htotal := totalSegments_eq ls
  unfold GetNodeId
  dsimp only
  generalize lower_bound (fun o : SegOffset =>
    decide ((o.m_nodeId + o.m_offset) % 4294967296 < i % 4294967296)) offs = idx at *
  rw [hprev]
  dsimp only
  by_cases hl : 1 < l.length
  · obtain ⟨hin, hget⟩ := hown hl
    rw [if_pos hin, hget]
    simp only
    rw [if_pos (by omega)]
  · by_cases hin : idx < offs.length
    · rw [if_pos hin]
      have hget : offs[idx]? = some offs[idx] := List.getElem?_eq_getElem hin
      have hgt := hnown (by omega) _ hget
      obtain ⟨j, lj, hj, hjl, hje⟩ := hT.entry_of_get _ _ hget
      have hjN : j < ls.length := (List.getElem?_eq_some.1 hj).1
      rw [hget]
      rw [hje] at hgt ⊢
      simp only at hgt ⊢
      rw [if_neg (by omega)]
      simp only [Option.some.injEq]
      omega
    · rw [if_neg hin]
      simp only [Option.some.injEq]
      omega

/-! ## What the builder writes -/

theorem map_enum_snd {β : Type} (f : List FtSeg → β) (ls : List (List FtSeg)) :
    ls.enum.map (fun c => f c.2) = ls.map f := by
  have h : ls.enum.map (fun c => f c.2) = (ls.enum.map Prod.snd).map f := by
    rw [List.map_map]
    rfl
  rw [h, List.enum_map_snd]

theorem enum_extra_sum (ls : List (List FtSeg)) :
    (ls.enum.map (fun c => c.2.length - 1)).sum = extraBefore ls ls.length := by
  rw [map_enum_snd (fun l => l.length - 1) ls]
  unfold extraBefore
  rw [List.take_length]

theorem build_some (ls : List (List FtSeg)) (b : OsrmFtSegMappingBuilder)
    (h : build ls = some b) :
    b = ⟨(ls.map stored).flatten, tableOf 0 ls.enum, extraBefore ls ls.length⟩ := by
  unfold build at h
  rw [appendAll_some _ _ _ h, map_enum_snd stored ls, enum_extra_sum]
  simp [fresh]

theorem build_of_fits (ls : List (List FtSeg)) (hfit : totalSegments ls ≤ 4294967296) :
    build ls = some ⟨(ls.map stored).flatten, tableOf 0 ls.enum, extraBefore ls ls.length⟩ := by
  have htot := totalSegments_eq ls
  have hz : ls.length = 0 → extraBefore ls ls.length = 0 := by
    intro h0
    rw [h0, extraBefore_zero]
  have hlt : fresh.m_lastOffset + (ls.enum.map (fun c => c.2.length - 1)).sum < 4294967296 := by
    rw [enum_extra_sum]
    simp only [fresh]
    omega
  unfold build
  rw [appendAll_of_fits _ _ hlt, map_enum_snd stored ls, enum_extra_sum]
  simp [fresh]

theorem stored_length (l : List FtSeg) : (stored l).length = max l.length 1 := by
  cases l with
  | nil => simp [stored]
  | cons s t => simp [stored]

theorem flatten_stored_length (ls : List (List FtSeg)) :
    ((ls.map stored).flatten).length = totalSegments ls := by
  unfold totalSegments
  rw [List.length_flatten, List.map_map]
  congr 1
  apply List.map_congr_left
  intro l _
  exact stored_length l

theorem drop_flatten_stored (ls : List (List FtSeg)) (k : Nat) (l : List FtSeg)
    (hk : ls[k]? = some l) :
    ((ls.map stored).flatten).drop (startRef ls k) =
      stored l ++ (((ls.drop (k + 1)).map stored).flatten) := by
  obtain ⟨hkN, rfl⟩ := List.getElem?_eq_some.1 hk
  have hsplit : ls = ls.take k ++ ls[k] :: ls.drop (k + 1) := by
    rw [← List.drop_eq_getElem_cons hkN, List.take_append_drop]
  have hlen : (((ls.take k).map stored).flatten).length = startRef ls k := by
    rw [flatten_stored_length]
    rfl
  have hflat : (ls.map stored).flatten =
      ((ls.take k).map stored).flatten ++
        (stored ls[k] ++ ((ls.drop (k + 1)).map stored).flatten) := by
    conv_lhs => rw [hsplit]
    rw [List.map_append, List.flatten_append, List.map_cons, List.flatten_cons]
  rw [hflat, List.drop_left' hlen]

theorem segments_at_start (ls : List (List FtSeg)) (k : Nat) (l : List FtSeg)
    (hk : ls[k]? = some l) :
    ((ls.map stored).flatten)[startRef ls k]? = (stored l).head? := by
  have h := drop_flatten_stored ls k l hk
  have h2 : ((ls.map stored).flatten)[startRef ls k]? =
      (((ls.map stored).flatten).drop (startRef ls k))[0]? := by
    rw [List.getElem?_drop]
    rfl
  rw [h2, h, ← List.head?_eq_getElem?, List.head?_append]
  cases l with
  | nil => simp [stored]
  | cons s t => simp [stored]

theorem view_of_stored (ls : List (List FtSeg)) (k : Nat) (l : List FtSeg)
    (hk : ls[k]? = some l) :
    viewSegments ((ls.map stored).flatten) (startRef ls k, l.length) = l := by
  unfold viewSegments
  simp only
  rw [drop_flatten_stored ls k l hk]
  cases l with
  | nil => simp
  | cons s t =>
    have hst : stored (s :: t) = s :: t := by simp [stored]
    rw [hst]
    exact List.take_left _ _

theorem GetSegVector_build (ls : List (List FtSeg)) (offs : List SegOffset)
    (hT : TableFor ls offs) (hfit : totalSegments ls ≤ 4294967296)
    (k : Nat) (l : List FtSeg) (hk : ls[k]? = some l)
    (hfid : ∀ s, l.head? = some s → s.m_fid ≠ INVALID_FID) :
    GetSegVector ((ls.map stored).flatten) offs k = some (startRef ls k, l.length) := by
  unfold GetSegVector
  rw [GetSegmentsRange_build ls offs hT hfit k l hk]
  simp only
  rw [segments_at_start ls k l hk]
  cases l with
  | nil => simp [stored, SENTINEL]
  | cons s t =>
    have hs := hfid s rfl
    simp [stored, hs]

theorem build_tableFor (ls : List (List FtSeg)) (hfit : totalSegments ls ≤ 4294967296) :
    ∃ b, build ls = some b ∧ b.m_segments = (ls.map stored).flatten ∧
      TableFor ls b.m_offsets :=
  ⟨_, build_of_fits ls hfit, rfl, tableFor_enum ls⟩

theorem build_replicate (n : Nat) (s t : FtSeg) (h1 : 1 < n) (h2 : n ≤ 4294967296) :
    build [List.replicate n s, [t]] =
      some ⟨List.replicate n s ++ [t], [⟨0, n - 1⟩], n - 1⟩ := by
  have hne : n ≠ 0 := by omega
  have hlt : fresh.m_lastOffset +
      (([List.replicate n s, [t]].enum).map (fun c => c.2.length - 1)).sum < 4294967296 := by
    simp only [fresh, List.enum, List.enumFrom, List.map_cons, List.map_nil, List.sum_cons,
      List.sum_nil, List.length_replicate, List.length_cons, List.length_nil]
    omega
  unfold build
  rw [appendAll_of_fits _ _ hlt]
  simp [fresh, List.enum, List.enumFrom, tableOf, stored, hne, h1]

theorem replicate_append_head (n : Nat) (hn : 0 < n) (s : FtSeg) (rest : List FtSeg) :
    (List.replicate n s ++ rest)[0]? = some s := by
  rw [List.getElem?_append_left (by rw [List.length_replicate]; exact hn)]
  exact List.getElem?_replicate_of_lt hn

theorem replicate_append_take_one (n : Nat) (hn : 0 < n) (s : FtSeg) (rest : List FtSeg) :
    (List.replicate n s ++ rest).take 1 = [s] := by
  cases n with
  | zero => omega
  | succ m => simp [List.replicate_succ]

theorem SegmentsFor_of_range_zero_one (n : Nat) (hn : 0 < n) (s : FtSeg)
    (rest : List FtSeg) (hs : s.m_fid ≠ INVALID_FID) (offs : List SegOffset) (k : Nat)
    (hr : GetSegmentsRange offs k = some (0, 1)) :
    SegmentsFor (List.replicate n s ++ rest) offs k = some [s] := by
  unfold SegmentsFor GetSegVector
  rw [hr]
  simp only
  rw [replicate_append_head n hn s rest]
  simp only [if_neg hs, Option.map_some', viewSegments, List.drop_zero]
  rw [replicate_append_take_one n hn s rest]

theorem count_replicate_append (n : Nat) (s : FtSeg) (rest : List FtSeg) :
    GetSegmentsCount (List.replicate n s ++ rest) = n + rest.length := by
  simp [GetSegmentsCount]

/-! ## The claims about the builder and the decoder -/

/-- C1 (amended). For lists `L_0 … L_{N-1}` whose stored segments number at most `2^32` and
none of which starts with a segment carrying the reserved feature id `2^32 - 1`, the
builder driven with `Append(k, L_k)` for `k = 0 … N-1` succeeds, and on the two arrays it
wrote `GetSegVector(k)` is the view that starts at the first stored slot of node `k` (the
sentinel when `L_k` is empty, the first segment of `L_k` otherwise) with count `|L_k|`,
whose elements are exactly `L_k` in order. -/
theorem roundtrip_SegmentsFor (ls : List (List FtSeg))
    (hfit : totalSegments ls ≤ 4294967296)
    (hfid : ∀ l ∈ ls, l.head?.map FtSeg.m_fid ≠ some INVALID_FID) :
    ∃ b, build ls = some b ∧
      ∀ (k : Nat) (l : List FtSeg), ls[k]? = some l →
        GetSegVector b.m_segments b.m_offsets k = some (startRef ls k, l.length) ∧
        SegmentsFor b.m_segments b.m_offsets k = some l ∧
        (l = [] → b.m_segments[startRef ls k]? = some SENTINEL) ∧
        (∀ s t, l = s :: t → b.m_segments[startRef ls k]? = some s) := by
  refine ⟨_, build_of_fits ls hfit, ?_⟩
  intro k l hk
  have hmem : l ∈ ls := List.mem_iff_getElem?.2 ⟨k, hk⟩
  have hf : ∀ s, l.head? = some s → s.m_fid ≠ INVALID_FID := by
    intro s hs hc
    apply hfid l hmem
    rw [hs]
    simp [hc]
  have hv := GetSegVector_build ls _ (tableFor_enum ls) hfit k l hk hf
  refine ⟨hv, ?_, ?_, ?_⟩
  · unfold SegmentsFor
    simp only []
    rw [hv]
    simp only [Option.map_some', Option.some.injEq]
    exact view_of_stored ls k l hk
  · intro hl
    subst hl
    simp only []
    rw [segments_at_start ls k _ hk]
    simp [stored]
  · intro s t hl
    subst hl
    simp only []
    rw [segments_at_start ls k _ hk]
    simp [stored]

/-- C1, the hypotheses of the amended round trip are met by the scenario of the spec. -/
theorem roundtrip_SegmentsFor_witness :
    totalSegments scenario ≤ 4294967296 ∧
    (∀ l ∈ scenario, l.head?.map FtSeg.m_fid ≠ some INVALID_FID) ∧
    ∃ b, build scenario = some b ∧
      ∀ (k : Nat) (l : List FtSeg), scenario[k]? = some l →
        GetSegVector b.m_segments b.m_offsets k = some (startRef scenario k, l.length) ∧
        SegmentsFor b.m_segments b.m_offsets k = some l ∧
        (l = [] → b.m_segments[startRef scenario k]? = some SENTINEL) ∧
        (∀ s t, l = s :: t → b.m_segments[startRef scenario k]? = some s) :=
  ⟨by decide, by decide, roundtrip_SegmentsFor scenario (by decide) (by decide)⟩

/-- C1, as stated, fails in two ways.  A list of one segment with the reserved feature id
`2^32 - 1` is read back with count `0`; and with `2^32` segments for node `0` the start of
node `1` wraps to `0`, so node `1` is read back as the first segment of node `0`. -/
theorem roundtrip_fails :
    (∃ b, build [[⟨4294967295, 3, 5⟩]] = some b ∧
      GetSegVector b.m_segments b.m_offsets 0 = some (0, 0) ∧
      SegmentsFor b.m_segments b.m_offsets 0 ≠ some [⟨4294967295, 3, 5⟩]) ∧
    (∃ b, build oversized = some b ∧
      SegmentsFor b.m_segments b.m_offsets 1 = some [⟨5, 0, 1⟩] ∧
      SegmentsFor b.m_segments b.m_offsets 1 ≠ some [⟨7, 0, 1⟩]) := by
  constructor
  · exact ⟨⟨[⟨4294967295, 3, 5⟩], [], 0⟩, by decide, by decide, by decide⟩
  · have hb := build_replicate 4294967296 (⟨5, 0, 1⟩ : FtSeg) ⟨7, 0, 1⟩ (by decide) (by decide)
    have hr : GetSegmentsRange [⟨0, 4294967296 - 1⟩] 1 = some (0, 1) := by decide
    have hv := SegmentsFor_of_range_zero_one 4294967296 (by decide) (⟨5, 0, 1⟩ : FtSeg)
      [⟨7, 0, 1⟩] (by decide) _ 1 hr
    refine ⟨_, hb, hv, ?_⟩
    simp only []
    rw [hv]
    decide

/-- C2 (amended). For lists whose stored segments number at most `2^32`, the builder fed
nodes `0 … N-1` in order succeeds, and for every segment index `i` below
`GetSegmentsCount()` the range `(start, len)` that `GetSegmentsRange` returns for the node
`GetNodeId(i)` satisfies `start ≤ i < start + len`. -/
theorem decode_consistent (ls : List (List FtSeg))
    (hfit : totalSegments ls ≤ 4294967296) :
    ∃ b, build ls = some b ∧
      ∀ i, i < GetSegmentsCount b.m_segments →
        ∃ n start len, GetNodeId b.m_offsets i = some n ∧
          GetSegmentsRange b.m_offsets n = some (start, len) ∧
          start ≤ i ∧ i < start + len := by
  refine ⟨_, build_of_fits ls hfit, ?_⟩
  intro i hi
  simp only [GetSegmentsCount, flatten_stored_length] at hi
  obtain ⟨k, l, hk, h1, h2⟩ := owner_exists ls i hi
  obtain ⟨-, -, -, hnext, -⟩ := layout_bounds ls k l hk
  refine ⟨k, startRef ls k, max l.length 1,
    GetNodeId_build ls _ (tableFor_enum ls) hfit i k l hk h1 h2,
    GetSegmentsRange_build ls _ (tableFor_enum ls) hfit k l hk, h1, ?_⟩
  omega

/-- C2, the amended decode consistency at the scenario of the spec. -/
theorem decode_consistent_witness :
    totalSegments scenario ≤ 4294967296 ∧
    ∃ b, build scenario = some b ∧
      ∀ i, i < GetSegmentsCount b.m_segments →
        ∃ n start len, GetNodeId b.m_offsets i = some n ∧
          GetSegmentsRange b.m_offsets n = some (start, len) ∧
          start ≤ i ∧ i < start + len :=
  ⟨by decide, decode_consistent scenario (by decide)⟩

/-- C2, as stated, fails once the segments outgrow 32-bit indices: with `2^32` segments
for node `0` and one for node `1`, segment index `2^32` exists, `GetNodeId` narrows it to
node `0`, and the range of node `0` is `(0, 2^32)`, which does not contain it. -/
theorem decode_inconsistent_when_oversized :
    ∃ b, build oversized = some b ∧
      4294967296 < GetSegmentsCount b.m_segments ∧
      GetNodeId b.m_offsets 4294967296 = some 0 ∧
      GetSegmentsRange b.m_offsets 0 = some (0, 4294967296) ∧
      ¬ (0 ≤ 4294967296 ∧ 4294967296 < 0 + 4294967296) := by
  have hb := build_replicate 4294967296 (⟨5, 0, 1⟩ : FtSeg) ⟨7, 0, 1⟩ (by decide) (by decide)
  have hc := count_replicate_append 4294967296 (⟨5, 0, 1⟩ : FtSeg) [⟨7, 0, 1⟩]
  have hn : GetNodeId [⟨0, 4294967296 - 1⟩] 4294967296 = some 0 := by decide
  have hr : GetSegmentsRange [⟨0, 4294967296 - 1⟩] 0 = some (0, 4294967296) := by decide
  refine ⟨_, hb, ?_, hn, hr, by decide⟩
  simp only []
  rw [hc]
  decide

/-- C3. For a builder fed `Append(k, L_k)` for `k = 0 … N-1` with fewer than `2^32` stored
segments in total, `GetSegmentsRange(k)` returns, for every `k < N`, the start
`Σ_{j<k} max(|L_j|, 1)` and the length `max(|L_k|, 1)`; it does not fail, and the range
ends inside the Segment Array. -/
theorem GetSegmentsRange_reference (ls : List (List FtSeg))
    (hfit : totalSegments ls < 4294967296) :
    ∃ b, build ls = some b ∧
      ∀ (k : Nat) (hk : k < ls.length),
        GetSegmentsRange b.m_offsets k = some (startRef ls k, max ls[k].length 1) ∧
        startRef ls k + max ls[k].length 1 ≤ b.m_segments.length := by
  refine ⟨_, build_of_fits ls (le_of_lt hfit), ?_⟩
  intro k hk
  have hget : ls[k]? = some ls[k] := List.getElem?_eq_getElem hk
  obtain ⟨-, -, -, hnext, htot⟩ := layout_bounds ls k ls[k] hget
  refine ⟨GetSegmentsRange_build ls _ (tableFor_enum ls) (le_of_lt hfit) k _ hget, ?_⟩
  simp only [flatten_stored_length]
  omega

/-- C3, the reference layout at the scenario of the spec. -/
theorem GetSegmentsRange_reference_witness :
    totalSegments scenario < 4294967296 ∧
    ∃ b, build scenario = some b ∧
      ∀ (k : Nat) (hk : k < scenario.length),
        GetSegmentsRange b.m_offsets k =
          some (startRef scenario k, max scenario[k].length 1) ∧
        startRef scenario k + max scenario[k].length 1 ≤ b.m_segments.length :=
  ⟨by decide, GetSegmentsRange_reference scenario (by decide)⟩

/-- C4. The scenario of the spec: the four `Append` calls on a fresh builder leave the
Segment Array `[Seg(5,0,3), Seg(5,3,6), Seg(5,6,9), SENTINEL, Seg(7,0,2)]` and the Offset
Table `[(1, 1)]`, and on that table `GetSegmentsRange` of `0, 1, 2, 3` is `(0,1)`, `(1,2)`,
`(3,1)`, `(4,1)`, `GetNodeId(2) = 1` and `GetNodeId(3) = 2`. -/
theorem scenario_values :
    (((fresh.Append 0 [⟨5, 0, 3⟩]).bind
        (fun b => b.Append 1 [⟨5, 3, 6⟩, ⟨5, 6, 9⟩])).bind
        (fun b => b.Append 2 [])).bind (fun b => b.Append 3 [⟨7, 0, 2⟩]) =
      some ⟨[⟨5, 0, 3⟩, ⟨5, 3, 6⟩, ⟨5, 6, 9⟩, ⟨4294967295, 0, 1⟩, ⟨7, 0, 2⟩], [⟨1, 1⟩], 1⟩ ∧
    SENTINEL = ⟨4294967295, 0, 1⟩ ∧
    GetSegmentsRange [⟨1, 1⟩] 0 = some (0, 1) ∧
    GetSegmentsRange [⟨1, 1⟩] 1 = some (1, 2) ∧
    GetSegmentsRange [⟨1, 1⟩] 2 = some (3, 1) ∧
    GetSegmentsRange [⟨1, 1⟩] 3 = some (4, 1) ∧
    GetNodeId [⟨1, 1⟩] 2 = some 1 ∧
    GetNodeId [⟨1, 1⟩] 3 = some 2 := by
  decide

/-! ## Which nodes get a table entry -/

theorem ids_injective (cs : List (Nat × List FtSeg))
    (hinc : cs.Pairwise (fun a c => a.1 < c.1))
    (i j : Nat) (c d : Nat × List FtSeg)
    (hc : cs[i]? = some c) (hd : cs[j]? = some d) (hid : c.1 = d.1) : i = j := by
  obtain ⟨hi, rfl⟩ := List.getElem?_eq_some.1 hc
  obtain ⟨hj, rfl⟩ := List.getElem?_eq_some.1 hd
  by_contra hne
  rcases Nat.lt_or_gt_of_ne hne with h | h
  · have := List.pairwise_iff_getElem.1 hinc i j hi hj h
    omega
  · have := List.pairwise_iff_getElem.1 hinc j i hj hi h
    omega

theorem filter_extra_sum (l : List (Nat × List FtSeg)) :
    ((l.filter (fun c => decide (1 < c.2.length))).map (fun c => c.2.length - 1)).sum =
      ((l.map Prod.snd).map (fun d => d.length - 1)).sum := by
  induction l with
  | nil => rfl
  | cons c l ih =>
    by_cases h : 1 < c.2.length
    · simp only [List.filter_cons, h, decide_True, if_true, List.map_cons, List.sum_cons, ih]
    · have h0 : c.2.length - 1 = 0 := by omega
      simp only [List.filter_cons, h, decide_False, Bool.false_eq_true, if_false,
        List.map_cons, List.sum_cons, ih, h0, Nat.zero_add]

theorem runningExtra_eq (cs : List (Nat × List FtSeg)) (n : Nat) :
    runningExtra cs n = extraBefore (cs.map Prod.snd) n := by
  unfold runningExtra extraBefore
  rw [filter_extra_sum, List.map_take]

theorem tableOf_nodeIds (cs : List (Nat × List FtSeg)) :
    ∀ acc : Nat, (tableOf acc cs).map SegOffset.m_nodeId =
      (cs.filter (fun c => decide (1 < c.2.length))).map Prod.fst := by
  induction cs with
  | nil =>
    intro acc
    rfl
  | cons c cs ih =>
    intro acc
    by_cases h : 1 < c.2.length
    · simp [tableOf, List.filter_cons, h, ih]
    · simp [tableOf, List.filter_cons, h, ih]

/-- C10 (amended). After a successful run of `Append` calls with strictly increasing node
ids on a fresh builder, a node has an entry in the Offset Table exactly when its segment
list has more than one element (an empty list gets none), the entries appear in call
order, and the entry of a node holds the running total of `length - 1` over that node and
all earlier nodes that have entries. -/
theorem offsetTable_membership (cs : List (Nat × List FtSeg)) (b : OsrmFtSegMappingBuilder)
    (hinc : cs.Pairwise (fun a c => a.1 < c.1))
    (hb : appendAll fresh cs = some b) :
    (∀ c ∈ cs, (∃ e ∈ b.m_offsets, e.m_nodeId = c.1) ↔ 1 < c.2.length) ∧
    (∀ (i : Nat) (c : Nat × List FtSeg), cs[i]? = some c →
      ∀ e ∈ b.m_offsets, e.m_nodeId = c.1 → e.m_offset = runningExtra cs (i + 1)) ∧
    b.m_offsets.map SegOffset.m_nodeId =
      (cs.filter (fun c => decide (1 < c.2.length))).map Prod.fst := by
  have hoff : b.m_offsets = tableOf 0 cs := by
    rw [appendAll_some cs fresh b hb]
    simp [fresh]
  rw [hoff]
  have key : ∀ (i : Nat) (c : Nat × List FtSeg), cs[i]? = some c →
      ∀ e ∈ tableOf 0 cs, e.m_nodeId = c.1 →
        1 < c.2.length ∧ e.m_offset = runningExtra cs (i + 1) := by
    intro i c hc e he hid
    obtain ⟨j, d, hd, hdl, hde⟩ := (mem_tableOf cs 0 e).1 he
    rw [hde] at hid
    have hji : j = i := ids_injective cs hinc j i d c hd hc hid
    subst hji
    rw [hc] at hd
    cases hd
    refine ⟨hdl, ?_⟩
    rw [hde, runningExtra_eq]
    simp
  refine ⟨?_, fun i c hc e he hid => (key i c hc e he hid).2, tableOf_nodeIds cs 0⟩
  intro c hc
  obtain ⟨i, hi⟩ := List.mem_iff_getElem?.1 hc
  constructor
  · rintro ⟨e, he, hid⟩
    exact (key i c hi e he hid).1
  · intro hl
    exact ⟨⟨c.1, 0 + extraBefore (cs.map Prod.snd) (i + 1)⟩,
      (mem_tableOf cs 0 _).2 ⟨i, c, hi, hl, rfl⟩, rfl⟩

/-- C10, the amended membership statement at the scenario of the spec. -/
theorem offsetTable_membership_witness :
    scenarioCalls.Pairwise (fun a c => a.1 < c.1) ∧
    appendAll fresh scenarioCalls = some scenarioBuilder ∧
    (∀ c ∈ scenarioCalls,
      (∃ e ∈ scenarioBuilder.m_offsets, e.m_nodeId = c.1) ↔ 1 < c.2.length) ∧
    (∀ (i : Nat) (c : Nat × List FtSeg), scenarioCalls[i]? = some c →
      ∀ e ∈ scenarioBuilder.m_offsets, e.m_nodeId = c.1 →
        e.m_offset = runningExtra scenarioCalls (i + 1)) ∧
    scenarioBuilder.m_offsets.map SegOffset.m_nodeId =
      (scenarioCalls.filter (fun c => decide (1 < c.2.length))).map Prod.fst :=
  ⟨by decide, by decide,
    offsetTable_membership scenarioCalls scenarioBuilder (by decide) (by decide)⟩

/-- C10, as stated, fails for an empty list: its length is not `1`, yet `Append(0, [])`
stores only the sentinel and adds no entry for node `0`. -/
theorem empty_list_has_no_entry :
    ∃ b, appendAll fresh [(0, [])] = some b ∧
      ([] : List FtSeg).length ≠ 1 ∧
      b.m_segments = [SENTINEL] ∧
      ¬ ∃ e ∈ b.m_offsets, e.m_nodeId = 0 :=
  ⟨⟨[SENTINEL], [], 0⟩, by decide, by decide, rfl, by decide⟩

/-! ## One `Append` step -/

/-- C11. A call `Append(nodeId, list)` that does not fail appends the sentinel to the
Segment Array when the list is empty and the list itself, verbatim, otherwise; it appends
the entry `(nodeId, oldTotal + |list| - 1)` to the Offset Table when `|list| > 1` and
leaves the table unchanged when `|list| ≤ 1` (no entry for length `1`, offset
`oldTotal + 1` for length `2`); the running total moves only in the `|list| > 1` case. -/
theorem Append_step (b b1 : OsrmFtSegMappingBuilder) (nodeId : Nat) (data : List FtSeg)
    (h : b.Append nodeId data = some b1) :
    b1.m_segments = (if data = [] then b.m_segments ++ [SENTINEL] else b.m_segments ++ data) ∧
    b1.m_offsets =
      (if 1 < data.length then b.m_offsets ++ [⟨nodeId, b.m_lastOffset + data.length - 1⟩]
       else b.m_offsets) ∧
    b1.m_lastOffset =
      (if 1 < data.length then b.m_lastOffset + data.length - 1 else b.m_lastOffset) ∧
    (data.length = 1 → b1.m_offsets = b.m_offsets) ∧
    (data.length = 2 → b1.m_offsets = b.m_offsets ++ [⟨nodeId, b.m_lastOffset + 1⟩]) := by
  rw [Append_eq] at h
  split_ifs at h with hc
  simp only [Option.some.injEq] at h
  subst h
  simp only [tableOf, List.append_nil]
  have hseg : stored data = if data = [] then [SENTINEL] else data := by
    cases data <;> simp [stored]
  refine ⟨?_, ?_, ?_, ?_, ?_⟩
  · rw [hseg]
    split_ifs <;> rfl
  · split_ifs with h1
    · have : b.m_lastOffset + (data.length - 1) = b.m_lastOffset + data.length - 1 := by omega
      rw [this]
    · simp
  · split_ifs with h1 <;> omega
  · intro h1
    have : ¬ 1 < data.length := by omega
    simp [this]
  · intro h2
    have : 1 < data.length := by omega
    simp [this, h2]

/-- C11, one step from the builder of the scenario: a two-segment list for node `4`. -/
theorem Append_step_witness :
    scenarioBuilder.Append 4 [⟨7, 2, 4⟩, ⟨7, 4, 6⟩] =
      some ⟨scenarioBuilder.m_segments ++ [⟨7, 2, 4⟩, ⟨7, 4, 6⟩], [⟨1, 1⟩, ⟨4, 2⟩], 2⟩ ∧
    (⟨scenarioBuilder.m_segments ++ [⟨7, 2, 4⟩, ⟨7, 4, 6⟩], [⟨1, 1⟩, ⟨4, 2⟩], 2⟩ :
        OsrmFtSegMappingBuilder).m_offsets =
      scenarioBuilder.m_offsets ++ [⟨4, scenarioBuilder.m_lastOffset + 1⟩] :=
  ⟨by decide,
   (Append_step scenarioBuilder _ 4 [⟨7, 2, 4⟩, ⟨7, 4, 6⟩] (by decide)).2.2.2.2 (by decide)⟩

/-- C15. For a list with more than one segment, `Append` fails exactly when the running
cumulative offset after adding `|list| - 1` is `2^32` or more; when it succeeds, the new
entry and the running total hold that exact sum. -/
theorem Append_overflow (b : OsrmFtSegMappingBuilder) (nodeId : Nat) (data : List FtSeg)
    (hlen : 1 < data.length) :
    (b.Append nodeId data = none ↔ 4294967296 ≤ b.m_lastOffset + (data.length - 1)) ∧
    (b.m_lastOffset + (data.length - 1) < 4294967296 →
      b.Append nodeId data =
        some ⟨b.m_segments ++ data,
              b.m_offsets ++ [⟨nodeId, b.m_lastOffset + (data.length - 1)⟩],
              b.m_lastOffset + (data.length - 1)⟩) ∧
    (∀ b1, b.Append nodeId data = some b1 →
      b1.m_offsets = b.m_offsets ++ [⟨nodeId, b.m_lastOffset + (data.length - 1)⟩] ∧
      b1.m_lastOffset = b.m_lastOffset + (data.length - 1)) := by
  have hst : stored data = data := by
    cases data with
    | nil => simp at hlen
    | cons s t => simp [stored]
  rw [Append_eq]
  simp only [hlen, true_and, tableOf, if_true, List.append_nil, hst]
  refine ⟨?_, ?_, ?_⟩
  · split_ifs with hc
    · simp [hc]
    · simp only [reduceCtorEq, false_iff]
      exact hc
  · intro hfit
    rw [if_neg (by omega)]
  · intro b1 hb
    split_ifs at hb with hc
    simp only [Option.some.injEq] at hb
    subst hb
    exact ⟨rfl, rfl⟩

/-- C15, a builder whose running offset is `2^32 - 1` rejects a two-segment list. -/
theorem Append_overflow_witness :
    (⟨[], [], 4294967295⟩ : OsrmFtSegMappingBuilder).Append 7 [⟨5, 0, 1⟩, ⟨5, 1, 2⟩] = none :=
  ((Append_overflow ⟨[], [], 4294967295⟩ 7 [⟨5, 0, 1⟩, ⟨5, 1, 2⟩] (by decide)).1).2
    (by decide)

/-! ## Invariants of a run of `Append` calls -/

theorem tableOf_getLast (cs : List (Nat × List FtSeg)) :
    ∀ acc : Nat, (((tableOf acc cs).getLast?).map SegOffset.m_offset).getD acc =
      acc + (cs.map (fun c => c.2.length - 1)).sum := by
  induction cs with
  | nil =>
    intro acc
    simp [tableOf]
  | cons c cs ih =>
    intro acc
    have ih1 := ih (acc + (c.2.length - 1))
    simp only [tableOf, List.getLast?_append, List.map_cons, List.sum_cons]
    by_cases hc : 1 < c.2.length
    · rw [if_pos hc]
      cases hl : (tableOf (acc + (c.2.length - 1)) cs).getLast? with
      | none =>
        rw [hl] at ih1
        simp only [Option.map_none', Option.getD_none] at ih1
        simp only [Option.none_or, List.getLast?_singleton, Option.map_some', Option.getD_some]
        omega
      | some x =>
        rw [hl] at ih1
        simp only [Option.map_some', Option.getD_some] at ih1
        simp only [Option.or_some, Option.map_some', Option.getD_some]
        omega
    · rw [if_neg hc]
      have h0 : c.2.length - 1 = 0 := by omega
      rw [h0, Nat.add_zero] at ih1
      rw [h0, Nat.add_zero]
      simp only [List.getLast?_nil, Option.or_none]
      omega

/-- C12. After every sequence of successful `Append` calls on a fresh builder the length
of the Segment Array is the number of calls plus the running cumulative offset, and that
offset is the `cumulativeOffset` of the last Offset Table entry (`0` for an empty
table). -/
theorem segments_length_invariant (cs : List (Nat × List FtSeg))
    (b : OsrmFtSegMappingBuilder) (h : appendAll fresh cs = some b) :
    b.m_segments.length = cs.length + b.m_lastOffset ∧
    b.m_lastOffset = ((b.m_offsets.getLast?).map SegOffset.m_offset).getD 0 := by
  rw [appendAll_some cs fresh b h]
  simp only [fresh, List.nil_append, Nat.zero_add]
  constructor
  · have h1 : (cs.map (fun c => stored c.2)) = (cs.map Prod.snd).map stored := by
      rw [List.map_map]
      rfl
    have h2 : (cs.map (fun c => c.2.length - 1)) =
        (cs.map Prod.snd).map (fun l => l.length - 1) := by
      rw [List.map_map]
      rfl
    rw [h1, h2, flatten_stored_length, totalSegments, sum_max_eq, List.length_map]
  · have := tableOf_getLast cs 0
    rw [Nat.zero_add] at this
    exact this.symm

/-- C12, the length invariant at the scenario of the spec: five segments, four calls, last
offset `1`. -/
theorem segments_length_invariant_witness :
    appendAll fresh scenarioCalls = some scenarioBuilder ∧
    scenarioBuilder.m_segments.length = scenarioCalls.length + scenarioBuilder.m_lastOffset ∧
    scenarioBuilder.m_lastOffset =
      ((scenarioBuilder.m_offsets.getLast?).map SegOffset.m_offset).getD 0 :=
  ⟨by decide, segments_length_invariant scenarioCalls scenarioBuilder (by decide)⟩

theorem tableOf_offsets (cs : List (Nat × List FtSeg)) :
    ∀ acc : Nat, (∀ e ∈ tableOf acc cs, acc < e.m_offset) ∧
      (tableOf acc cs).Pairwise (fun x y => x.m_offset < y.m_offset) := by
  induction cs with
  | nil =>
    intro acc
    simp [tableOf]
  | cons c cs ih =>
    intro acc
    obtain ⟨ih1, ih2⟩ := ih (acc + (c.2.length - 1))
    simp only [tableOf]
    by_cases hc : 1 < c.2.length
    · rw [if_pos hc]
      constructor
      · intro e he
        simp only [List.singleton_append, List.mem_cons] at he
        rcases he with he | he
        · rw [he]
          simp only
          omega
        · have := ih1 e he
          omega
      · simp only [List.singleton_append, List.pairwise_cons]
        exact ⟨fun e he => ih1 e he, ih2⟩
    · rw [if_neg hc]
      have h0 : c.2.length - 1 = 0 := by omega
      rw [h0, Nat.add_zero] at ih1 ih2
      rw [h0, Nat.add_zero]
      simpa using ⟨ih1, ih2⟩

theorem sum_lt_of_pairwise (offs : List SegOffset)
    (hn : offs.Pairwise (fun a b => a.m_nodeId < b.m_nodeId))
    (ho : offs.Pairwise (fun a b => a.m_offset ≤ b.m_offset)) :
    offs.Pairwise (fun x y => x.m_nodeId + x.m_offset < y.m_nodeId + y.m_offset) := by
  have h := List.Pairwise.and hn ho
  exact h.imp (fun hab => by omega)

/-- C19. For valid segments `a` and `b` (ends differ), after `a.Merge(b)`, successful or
not, `a` still has different ends, the same feature id and the same direction; and after a
successful merge the interval of `a` contains both original intervals, and merging `b`
again succeeds and leaves `a` as it is. -/
theorem Merge_preserves_invariant (a b : FtSeg)
    (ha : a.m_pointStart ≠ a.m_pointEnd) (_hb : b.m_pointStart ≠ b.m_pointEnd) :
    ((a.Merge b).2.m_pointStart ≠ (a.Merge b).2.m_pointEnd ∧
      (a.Merge b).2.m_fid = a.m_fid ∧ (a.Merge b).2.dir = a.dir) ∧
    ((a.Merge b).1 = true →
      ((a.Merge b).2.lo ≤ a.lo ∧ a.hi ≤ (a.Merge b).2.hi) ∧
      ((a.Merge b).2.lo ≤ b.lo ∧ b.hi ≤ (a.Merge b).2.hi) ∧
      ((a.Merge b).2.Merge b).1 = true ∧
      ((a.Merge b).2.Merge b).2 = (a.Merge b).2) := by
  have hshape : (a.Merge b).1 = true →
      (a.Merge b).2.m_fid = a.m_fid ∧ (a.Merge b).2.dir = a.dir ∧
      (a.Merge b).2.lo = min a.lo b.lo ∧ (a.Merge b).2.hi = max a.hi b.hi := by
    intro h
    rw [FtSeg.Merge_snd_of_true a b h]
    cases hd : a.dir
    · have hd2 : ¬ a.m_pointStart < a.m_pointEnd := by
        rw [← FtSeg.dir_iff, hd]; simp
      simp only [FtSeg.dir, FtSeg.lo, FtSeg.hi] at *
      simp
      try omega
    · have hd2 : a.m_pointStart < a.m_pointEnd := by
        rw [← FtSeg.dir_iff, hd]
      simp only [FtSeg.dir, FtSeg.lo, FtSeg.hi] at *
      simp
      try omega
  have hlohi : ∀ s : FtSeg, s.m_pointStart ≠ s.m_pointEnd ↔ s.lo < s.hi := by
    intro s
    simp only [FtSeg.lo, FtSeg.hi]
    omega
  constructor
  · cases hm : (a.Merge b).1
    · rw [FtSeg.Merge_snd_of_false a b hm]
      exact ⟨ha, rfl, rfl⟩
    · obtain ⟨h1, h2, h3, h4⟩ := hshape hm
      refine ⟨?_, h1, h2⟩
      rw [hlohi, h3, h4]
      have := (hlohi a).1 ha
      omega
  · intro hm
    obtain ⟨h1, h2, h3, h4⟩ := hshape hm
    obtain ⟨hf, hd, hi⟩ := (FtSeg.Merge_fst a b).1 hm
    have hagain : ((a.Merge b).2.Merge b).1 = true := by
      rw [FtSeg.Merge_fst, h1, h2, h3, h4, my_IsIntersect_iff]
      have := b.lo_le_hi
      refine ⟨hf, hd, ?_, ?_⟩ <;> omega
    refine ⟨by rw [h3, h4]; omega, by rw [h3, h4]; omega, hagain, ?_⟩
    rw [FtSeg.Merge_snd_of_true _ b hagain, h1, h2, h3, h4]
    have e1 : min (min a.lo b.lo) b.lo = min a.lo b.lo := by omega
    have e2 : max (max a.hi b.hi) b.hi = max a.hi b.hi := by omega
    rw [e1, e2, ← FtSeg.Merge_snd_of_true a b hm]

/-- C19, two touching forward segments of feature `5`. -/
theorem Merge_preserves_invariant_witness :
    ((⟨5, 0, 3⟩ : FtSeg).Merge ⟨5, 3, 6⟩).1 = true ∧
    ((⟨5, 0, 3⟩ : FtSeg).Merge ⟨5, 3, 6⟩).2 = ⟨5, 0, 6⟩ ∧
    ((((⟨5, 0, 3⟩ : FtSeg).Merge ⟨5, 3, 6⟩).2.Merge ⟨5, 3, 6⟩).2 =
      ((⟨5, 0, 3⟩ : FtSeg).Merge ⟨5, 3, 6⟩).2) :=
  ⟨by decide, by decide,
   ((Merge_preserves_invariant ⟨5, 0, 3⟩ ⟨5, 3, 6⟩ (by decide) (by decide)).2
      (by decide)).2.2.2⟩

/-! ## The decoder never reads outside the table -/

theorem lowerBoundLoop_le {α : Type} (comp : α → Bool) (xs : List α) :
    ∀ fuel first len, first + len ≤ xs.length →
      lowerBoundLoop comp xs fuel first len ≤ xs.length := by
  intro fuel
  induction fuel with
  | zero =>
    intro first len h
    simp only [lowerBoundLoop]
    omega
  | succ n ih =>
    intro first len h
    by_cases hl : len = 0
    · simp only [lowerBoundLoop, hl, if_true]
      omega
    · have hmid : first + len / 2 < xs.length := by omega
      have hget : xs[first + len / 2]? = some xs[first + len / 2] :=
        List.getElem?_eq_getElem hmid
      simp only [lowerBoundLoop, hl, if_false, hget]
      split_ifs
      · exact ih _ _ (by omega)
      · exact ih _ _ (by omega)

theorem lower_bound_le {α : Type} (comp : α → Bool) (xs : List α) :
    lower_bound comp xs ≤ xs.length :=
  lowerBoundLoop_le comp xs xs.length 0 xs.length (by omega)

theorem GetNodeId_isSome (offs : List SegOffset) (i : Nat) :
    ∃ n, GetNodeId offs i = some n := by
  have hle := lower_bound_le (fun o : SegOffset =>
    decide ((o.m_nodeId + o.m_offset) % 4294967296 < i % 4294967296)) offs
  unfold GetNodeId
  dsimp only
  generalize lower_bound (fun o : SegOffset =>
    decide ((o.m_nodeId + o.m_offset) % 4294967296 < i % 4294967296)) offs = idx at *
  have hprev : ∃ v, (if idx > 0 then (offs[idx - 1]?).map (fun o => o.m_offset) else some 0) =
      some v := by
    by_cases h0 : idx > 0
    · rw [if_pos h0, List.getElem?_eq_getElem (by omega)]
      exact ⟨_, rfl⟩
    · rw [if_neg h0]
      exact ⟨_, rfl⟩
  obtain ⟨v, hv⟩ := hprev
  rw [hv]
  dsimp only
  by_cases hin : idx < offs.length
  · rw [if_pos hin, List.getElem?_eq_getElem hin]
    dsimp only
    split_ifs
    · exact ⟨_, rfl⟩
    · exact ⟨_, rfl⟩
  · rw [if_neg hin]
    exact ⟨_, rfl⟩

theorem GetSegmentsRange_isSome (offs : List SegOffset) (k : Nat) :
    ∃ r, GetSegmentsRange offs k = some r := by
  have hle := lower_bound_le (fun o : SegOffset => decide (o.m_nodeId < k)) offs
  unfold GetSegmentsRange
  dsimp only
  generalize lower_bound (fun o : SegOffset => decide (o.m_nodeId < k)) offs = idx at *
  have hprev : ∃ v, (if idx > 0 then
      (offs[idx - 1]?).map (fun o => (o.m_offset + k) % 4294967296) else some k) = some v := by
    by_cases h0 : idx > 0
    · rw [if_pos h0, List.getElem?_eq_getElem (by omega)]
      exact ⟨_, rfl⟩
    · rw [if_neg h0]
      exact ⟨_, rfl⟩
  obtain ⟨v, hv⟩ := hprev
  rw [hv]
  dsimp only
  by_cases hin : idx < offs.length
  · rw [if_pos hin, List.getElem?_eq_getElem hin]
    dsimp only
    split_ifs
    · exact ⟨_, rfl⟩
    · exact ⟨_, rfl⟩
  · rw [if_neg hin]
    exact ⟨_, rfl⟩

/-! ## One iteration of the reverse-lookup scan -/

theorem owner_exclusive (q s : FtSeg) (hf : isForwardOwner q s = true) :
    isReverseOwner q s = false := by
  simp only [isForwardOwner, isReverseOwner, decide_eq_true_eq, decide_eq_false_iff_not] at *
  omega

theorem loop_forward_assert (offs : List SegOffset) (q s : FtSeg) (rest : List FtSeg)
    (i fw rv : Nat) (hf : isForwardOwner q s = true) (hfw : fw ≠ INVALID) :
    GetOsrmNodeLoop offs q (s :: rest) i fw rv = none := by
  simp only [isForwardOwner, decide_eq_true_eq] at hf
  obtain ⟨h1, h2, h3, h4⟩ := hf
  rw [GetOsrmNodeLoop]
  rw [if_neg (by simp [h1]), if_pos h2, if_pos ⟨h3, h4⟩, if_pos hfw]

theorem loop_forward (offs : List SegOffset) (q s : FtSeg) (rest : List FtSeg)
    (i fw rv n : Nat) (hf : isForwardOwner q s = true) (hfw : fw = INVALID)
    (hn : GetNodeId offs i = some n) :
    GetOsrmNodeLoop offs q (s :: rest) i fw rv =
      if rv ≠ INVALID then some (n, rv) else GetOsrmNodeLoop offs q rest (i + 1) n rv := by
  simp only [isForwardOwner, decide_eq_true_eq] at hf
  obtain ⟨h1, h2, h3, h4⟩ := hf
  rw [GetOsrmNodeLoop]
  rw [if_neg (by simp [h1]), if_pos h2, if_pos ⟨h3, h4⟩, if_neg (by simp [hfw]), hn]

theorem loop_reverse_assert (offs : List SegOffset) (q s : FtSeg) (rest : List FtSeg)
    (i fw rv : Nat) (hr : isReverseOwner q s = true) (hrv : rv ≠ INVALID) :
    GetOsrmNodeLoop offs q (s :: rest) i fw rv = none := by
  simp only [isReverseOwner, decide_eq_true_eq] at hr
  obtain ⟨h1, h2, h3, h4⟩ := hr
  rw [GetOsrmNodeLoop]
  rw [if_neg (by simp [h1]), if_neg (by omega), if_pos ⟨h3, h4⟩, if_pos hrv]

theorem loop_reverse (offs : List SegOffset) (q s : FtSeg) (rest : List FtSeg)
    (i fw rv n : Nat) (hr : isReverseOwner q s = true) (hrv : rv = INVALID)
    (hn : GetNodeId offs i = some n) :
    GetOsrmNodeLoop offs q (s :: rest) i fw rv =
      if fw ≠ INVALID then some (fw, n) else GetOsrmNodeLoop offs q rest (i + 1) fw n := by
  simp only [isReverseOwner, decide_eq_true_eq] at hr
  obtain ⟨h1, h2, h3, h4⟩ := hr
  rw [GetOsrmNodeLoop]
  rw [if_neg (by simp [h1]), if_neg (by omega), if_pos ⟨h3, h4⟩, if_neg (by simp [hrv]), hn]

theorem loop_skip (offs : List SegOffset) (q s : FtSeg) (rest : List FtSeg)
    (i fw rv : Nat) (hf : isForwardOwner q s = false) (hr : isReverseOwner q s = false) :
    GetOsrmNodeLoop offs q (s :: rest) i fw rv =
      GetOsrmNodeLoop offs q rest (i + 1) fw rv := by
  simp only [isForwardOwner, isReverseOwner, decide_eq_false_iff_not] at hf hr
  rw [GetOsrmNodeLoop]
  by_cases h1 : s.m_fid ≠ q.m_fid
  · rw [if_pos h1]
  · rw [if_neg h1]
    have h1e : s.m_fid = q.m_fid := not_not.1 h1
    by_cases h2 : s.m_pointStart ≤ s.m_pointEnd
    · rw [if_pos h2, if_neg]
      intro h3
      exact hf ⟨h1e, h2, h3.1, h3.2⟩
    · rw [if_neg h2, if_neg]
      intro h4
      exact hr ⟨h1e, by omega, h4.1, h4.2⟩

/-! ## The smallest owner index -/

theorem firstIndexFrom_eq_some (p : FtSeg → Bool) (rest : List FtSeg) :
    ∀ (i d : Nat) (s : FtSeg), rest[d]? = some s → p s = true →
      (∀ (e : Nat) (t : FtSeg), e < d → rest[e]? = some t → p t = false) →
      firstIndexFrom p rest i = some (i + d) := by
  induction rest with
  | nil =>
    intro i d s hs
    simp at hs
  | cons x rest ih =>
    intro i d s hs hp hmin
    cases d with
    | zero =>
      simp only [List.getElem?_cons_zero, Option.some.injEq] at hs
      subst hs
      simp [firstIndexFrom, hp]
    | succ d =>
      have hx : p x = false := hmin 0 x (by omega) (by simp)
      simp only [firstIndexFrom, hx, Bool.false_eq_true, if_false]
      rw [ih (i + 1) d s (by simpa using hs) hp
        (fun e t he ht => hmin (e + 1) t (by omega) (by simpa using ht))]
      congr 1
      omega

theorem firstIndexFrom_eq_none (p : FtSeg → Bool) (rest : List FtSeg) :
    ∀ i : Nat, (∀ (d : Nat) (s : FtSeg), rest[d]? = some s → p s = false) →
      firstIndexFrom p rest i = none := by
  induction rest with
  | nil =>
    intro i _
    rfl
  | cons x rest ih =>
    intro i h
    have hx : p x = false := h 0 x (by simp)
    simp only [firstIndexFrom, hx, Bool.false_eq_true, if_false]
    exact ih (i + 1) (fun d s hs => h (d + 1) s (by simpa using hs))

/-! ## What the scan returns -/

theorem loop_result (offs : List SegOffset) (q : FtSeg) (rest : List FtSeg) :
    ∀ (i fw rv fw1 rv1 : Nat),
      (∀ (d : Nat) (s : FtSeg), rest[d]? = some s →
        (isForwardOwner q s = true ∨ isReverseOwner q s = true) →
        GetNodeId offs (i + d) ≠ some INVALID) →
      GetOsrmNodeLoop offs q rest i fw rv = some (fw1, rv1) →
      (fw ≠ INVALID → fw1 = fw) ∧
      (fw = INVALID →
        some fw1 = ownerNode offs (firstIndexFrom (isForwardOwner q) rest i)) ∧
      (rv ≠ INVALID → rv1 = rv) ∧
      (rv = INVALID →
        some rv1 = ownerNode offs (firstIndexFrom (isReverseOwner q) rest i)) := by
  induction rest with
  | nil =>
    intro i fw rv fw1 rv1 _ h
    simp only [GetOsrmNodeLoop, Option.some.injEq, Prod.mk.injEq] at h
    obtain ⟨rfl, rfl⟩ := h
    refine ⟨fun _ => rfl, fun hc => ?_, fun _ => rfl, fun hc => ?_⟩ <;>
      simp [firstIndexFrom, ownerNode, hc]
  | cons s rest ih =>
    intro i fw rv fw1 rv1 H h
    have Hrest : ∀ (d : Nat) (t : FtSeg), rest[d]? = some t →
        (isForwardOwner q t = true ∨ isReverseOwner q t = true) →
        GetNodeId offs (i + 1 + d) ≠ some INVALID := by
      intro d t ht ho
      have := H (d + 1) t (by simpa using ht) ho
      rwa [show i + (d + 1) = i + 1 + d by omega] at this
    obtain ⟨n, hn⟩ := GetNodeId_isSome offs i
    cases hF : isForwardOwner q s
    · cases hR : isReverseOwner q s
      · rw [loop_skip offs q s rest i fw rv hF hR] at h
        have := ih (i + 1) fw rv fw1 rv1 Hrest h
        simpa [firstIndexFrom, hF, hR] using this
      · have hnI : n ≠ INVALID := by
          intro hc
          exact H 0 s (by simp) (Or.inr hR) (by rw [Nat.add_zero, hn, hc])
        by_cases hrv : rv = INVALID
        · rw [loop_reverse offs q s rest i fw rv n hR hrv hn] at h
          by_cases hfw : fw = INVALID
          · rw [if_neg (by simp [hfw])] at h
            obtain ⟨-, a2, a3, -⟩ := ih (i + 1) fw n fw1 rv1 Hrest h
            refine ⟨fun hc => absurd hfw hc, fun _ => ?_, fun hc => absurd hrv hc, fun _ => ?_⟩
            · simpa [firstIndexFrom, hF] using a2 hfw
            · rw [a3 hnI]
              simp [firstIndexFrom, hR, ownerNode, hn]
          · rw [if_pos hfw] at h
            simp only [Option.some.injEq, Prod.mk.injEq] at h
            obtain ⟨rfl, rfl⟩ := h
            refine ⟨fun _ => rfl, fun hc => absurd hc hfw, fun hc => absurd hrv hc, fun _ => ?_⟩
            simp [firstIndexFrom, hR, ownerNode, hn]
        · rw [loop_reverse_assert offs q s rest i fw rv hR hrv] at h
          simp at h
    · have hR := owner_exclusive q s hF
      have hnI : n ≠ INVALID := by
        intro hc
        exact H 0 s (by simp) (Or.inl hF) (by rw [Nat.add_zero, hn, hc])
      by_cases hfw : fw = INVALID
      · rw [loop_forward offs q s rest i fw rv n hF hfw hn] at h
        by_cases hrv : rv = INVALID
        · rw [if_neg (by simp [hrv])] at h
          obtain ⟨a1, -, -, a4⟩ := ih (i + 1) n rv fw1 rv1 Hrest h
          refine ⟨fun hc => absurd hfw hc, fun _ => ?_, fun hc => absurd hrv hc, fun _ => ?_⟩
          · rw [a1 hnI]
            simp [firstIndexFrom, hF, ownerNode, hn]
          · simpa [firstIndexFrom, hR] using a4 hrv
        · rw [if_pos hrv] at h
          simp only [Option.some.injEq, Prod.mk.injEq] at h
          obtain ⟨rfl, rfl⟩ := h
          refine ⟨fun hc => absurd hfw hc, fun _ => ?_, fun _ => rfl, fun hc => absurd hc hrv⟩
          simp [firstIndexFrom, hF, ownerNode, hn]
      · rw [loop_forward_assert offs q s rest i fw rv hF hfw] at h
        simp at h

theorem loop_sameOnFeature (offs : List SegOffset) (q : FtSeg) (segs segs1 : List FtSeg)
    (h : SameOnFeature q segs segs1) :
    ∀ (i fw rv : Nat),
      GetOsrmNodeLoop offs q segs i fw rv = GetOsrmNodeLoop offs q segs1 i fw rv := by
  unfold SameOnFeature at h
  induction h with
  | nil =>
    intro i fw rv
    rfl
  | cons hst _ ih =>
    intro i fw rv
    rcases hst with rfl | ⟨h1, h2⟩
    · simp only [GetOsrmNodeLoop, ih]
    · rw [GetOsrmNodeLoop, GetOsrmNodeLoop, if_pos h1, if_pos h2]
      exact ih (i + 1) fw rv

/-! ## When the scan meets a second owner -/

theorem loop_second_forward (offs : List SegOffset) (q : FtSeg) (rest : List FtSeg) :
    ∀ (i fw rv : Nat), fw ≠ INVALID →
      (∃ (d : Nat) (s : FtSeg), rest[d]? = some s ∧ isForwardOwner q s = true ∧
        ∀ (e : Nat) (t : FtSeg), e < d → rest[e]? = some t → isReverseOwner q t = false) →
      GetOsrmNodeLoop offs q rest i fw rv = none := by
  induction rest with
  | nil =>
    rintro i fw rv _ ⟨d, s, hs, -, -⟩
    simp at hs
  | cons x rest ih =>
    rintro i fw rv hfw ⟨d, s, hs, hF, hnoR⟩
    cases hFx : isForwardOwner q x
    · cases d with
      | zero =>
        simp only [List.getElem?_cons_zero, Option.some.injEq] at hs
        subst hs
        rw [hF] at hFx
        cases hFx
      | succ d =>
        have hRx : isReverseOwner q x = false := hnoR 0 x (by omega) (by simp)
        rw [loop_skip offs q x rest i fw rv hFx hRx]
        exact ih (i + 1) fw rv hfw ⟨d, s, by simpa using hs, hF,
          fun e t he ht => hnoR (e + 1) t (by omega) (by simpa using ht)⟩
    · exact loop_forward_assert offs q x rest i fw rv hFx hfw

theorem loop_second_reverse (offs : List SegOffset) (q : FtSeg) (rest : List FtSeg) :
    ∀ (i fw rv : Nat), rv ≠ INVALID →
      (∃ (d : Nat) (s : FtSeg), rest[d]? = some s ∧ isReverseOwner q s = true ∧
        ∀ (e : Nat) (t : FtSeg), e < d → rest[e]? = some t → isForwardOwner q t = false) →
      GetOsrmNodeLoop offs q rest i fw rv = none := by
  induction rest with
  | nil =>
    rintro i fw rv _ ⟨d, s, hs, -, -⟩
    simp at hs
  | cons x rest ih =>
    rintro i fw rv hrv ⟨d, s, hs, hR, hnoF⟩
    cases hRx : isReverseOwner q x
    · cases d with
      | zero =>
        simp only [List.getElem?_cons_zero, Option.some.injEq] at hs
        subst hs
        rw [hR] at hRx
        cases hRx
      | succ d =>
        have hFx : isForwardOwner q x = false := hnoF 0 x (by omega) (by simp)
        rw [loop_skip offs q x rest i fw rv hFx hRx]
        exact ih (i + 1) fw rv hrv ⟨d, s, by simpa using hs, hR,
          fun e t he ht => hnoF (e + 1) t (by omega) (by simpa using ht)⟩
    · exact loop_reverse_assert offs q x rest i fw rv hRx hrv

theorem loop_two_forward (offs : List SegOffset) (q : FtSeg) (rest : List FtSeg) :
    ∀ (i : Nat),
      (∀ (d : Nat) (s : FtSeg), rest[d]? = some s →
        (isForwardOwner q s = true ∨ isReverseOwner q s = true) →
        GetNodeId offs (i + d) ≠ some INVALID) →
      (∃ (d1 d2 : Nat) (s1 s2 : FtSeg), d1 < d2 ∧
        rest[d1]? = some s1 ∧ isForwardOwner q s1 = true ∧
        rest[d2]? = some s2 ∧ isForwardOwner q s2 = true ∧
        ∀ (e : Nat) (t : FtSeg), e < d2 → rest[e]? = some t → isReverseOwner q t = false) →
      GetOsrmNodeLoop offs q rest i INVALID INVALID = none := by
  induction rest with
  | nil =>
    rintro i _ ⟨d1, d2, s1, s2, -, hs, -⟩
    simp at hs
  | cons x rest ih =>
    rintro i H ⟨d1, d2, s1, s2, hlt, hs1, hF1, hs2, hF2, hnoR⟩
    obtain ⟨d, rfl⟩ : ∃ d, d2 = d + 1 := ⟨d2 - 1, by omega⟩
    have hs2r : rest[d]? = some s2 := by simpa using hs2
    have hnoRr : ∀ (e : Nat) (t : FtSeg), e < d → rest[e]? = some t →
        isReverseOwner q t = false :=
      fun e t he ht => hnoR (e + 1) t (by omega) (by simpa using ht)
    have hRx : isReverseOwner q x = false := hnoR 0 x (by omega) (by simp)
    cases hFx : isForwardOwner q x
    · rw [loop_skip offs q x rest i INVALID INVALID hFx hRx]
      obtain ⟨c, rfl⟩ : ∃ c, d1 = c + 1 := by
        cases d1 with
        | zero =>
          simp only [List.getElem?_cons_zero, Option.some.injEq] at hs1
          subst hs1
          rw [hF1] at hFx
          cases hFx
        | succ c => exact ⟨c, rfl⟩
      apply ih (i + 1)
      · intro e t ht ho
        have := H (e + 1) t (by simpa using ht) ho
        rwa [show i + (e + 1) = i + 1 + e by omega] at this
      · exact ⟨c, d, s1, s2, by omega, by simpa using hs1, hF1, hs2r, hF2, hnoRr⟩
    · obtain ⟨n, hn⟩ := GetNodeId_isSome offs i
      have hnI : n ≠ INVALID := by
        intro hc
        exact H 0 x (by simp) (Or.inl hFx) (by rw [Nat.add_zero, hn, hc])
      rw [loop_forward offs q x rest i INVALID INVALID n hFx rfl hn, if_neg (by simp)]
      exact loop_second_forward offs q rest (i + 1) n INVALID hnI ⟨d, s2, hs2r, hF2, hnoRr⟩

theorem loop_two_reverse (offs : List SegOffset) (q : FtSeg) (rest : List FtSeg) :
    ∀ (i : Nat),
      (∀ (d : Nat) (s : FtSeg), rest[d]? = some s →
        (isForwardOwner q s = true ∨ isReverseOwner q s = true) →
        GetNodeId offs (i + d) ≠ some INVALID) →
      (∃ (d1 d2 : Nat) (s1 s2 : FtSeg), d1 < d2 ∧
        rest[d1]? = some s1 ∧ isReverseOwner q s1 = true ∧
        rest[d2]? = some s2 ∧ isReverseOwner q s2 = true ∧
        ∀ (e : Nat) (t : FtSeg), e < d2 → rest[e]? = some t → isForwardOwner q t = false) →
      GetOsrmNodeLoop offs q rest i INVALID INVALID = none := by
  induction rest with
  | nil =>
    rintro i _ ⟨d1, d2, s1, s2, -, hs, -⟩
    simp at hs
  | cons x rest ih =>
    rintro i H ⟨d1, d2, s1, s2, hlt, hs1, hR1, hs2, hR2, hnoF⟩
    obtain ⟨d, rfl⟩ : ∃ d, d2 = d + 1 := ⟨d2 - 1, by omega⟩
    have hs2r : rest[d]? = some s2 := by simpa using hs2
    have hnoFr : ∀ (e : Nat) (t : FtSeg), e < d → rest[e]? = some t →
        isForwardOwner q t = false :=
      fun e t he ht => hnoF (e + 1) t (by omega) (by simpa using ht)
    have hFx : isForwardOwner q x = false := hnoF 0 x (by omega) (by simp)
    cases hRx : isReverseOwner q x
    · rw [loop_skip offs q x rest i INVALID INVALID hFx hRx]
      obtain ⟨c, rfl⟩ : ∃ c, d1 = c + 1 := by
        cases d1 with
        | zero =>
          simp only [List.getElem?_cons_zero, Option.some.injEq] at hs1
          subst hs1
          rw [hR1] at hRx
          cases hRx
        | succ c => exact ⟨c, rfl⟩
      apply ih (i + 1)
      · intro e t ht ho
        have := H (e + 1) t (by simpa using ht) ho
        rwa [show i + (e + 1) = i + 1 + e by omega] at this
      · exact ⟨c, d, s1, s2, by omega, by simpa using hs1, hR1, hs2r, hR2, hnoFr⟩
    · obtain ⟨n, hn⟩ := GetNodeId_isSome offs i
      have hnI : n ≠ INVALID := by
        intro hc
        exact H 0 x (by simp) (Or.inr hRx) (by rw [Nat.add_zero, hn, hc])
      rw [loop_reverse offs q x rest i INVALID INVALID n hRx rfl hn, if_neg (by simp)]
      exact loop_second_reverse offs q rest (i + 1) INVALID n hnI ⟨d, s2, hs2r, hR2, hnoFr⟩

/-! ## The claims about the reverse lookup -/

/-- C13 (amended). For a query with `pointStart < pointEnd`, when `GetNodeId` does not
yield `INVALID` at an owner's index: if a second forward owner is stored before any
reverse owner, or a second reverse owner before any forward owner, `GetOsrmNode` fails
with an assertion instead of returning.  (Once one owner of each direction has been found
the scan stops, and later duplicates are not looked at.) -/
theorem GetOsrmNode_ambiguity_fatal (segs : List FtSeg) (offs : List SegOffset) (q : FtSeg)
    (hq : q.m_pointStart < q.m_pointEnd)
    (hid : ∀ (d : Nat) (s : FtSeg), segs[d]? = some s →
      (isForwardOwner q s = true ∨ isReverseOwner q s = true) →
      GetNodeId offs d ≠ some INVALID)
    (hdup :
      (∃ (d1 d2 : Nat) (s1 s2 : FtSeg), d1 < d2 ∧
        segs[d1]? = some s1 ∧ isForwardOwner q s1 = true ∧
        segs[d2]? = some s2 ∧ isForwardOwner q s2 = true ∧
        ∀ (e : Nat) (t : FtSeg), e < d2 → segs[e]? = some t → isReverseOwner q t = false) ∨
      (∃ (d1 d2 : Nat) (s1 s2 : FtSeg), d1 < d2 ∧
        segs[d1]? = some s1 ∧ isReverseOwner q s1 = true ∧
        segs[d2]? = some s2 ∧ isReverseOwner q s2 = true ∧
        ∀ (e : Nat) (t : FtSeg), e < d2 → segs[e]? = some t → isForwardOwner q t = false)) :
    GetOsrmNode segs offs q = none := by
  have H : ∀ (d : Nat) (s : FtSeg), segs[d]? = some s →
      (isForwardOwner q s = true ∨ isReverseOwner q s = true) →
      GetNodeId offs (0 + d) ≠ some INVALID := by
    intro d s hs ho
    rw [Nat.zero_add]
    exact hid d s hs ho
  unfold GetOsrmNode
  rw [if_neg (by simpa using hq)]
  rcases hdup with h | h
  · exact loop_two_forward offs q segs 0 H h
  · exact loop_two_reverse offs q segs 0 H h

/-- C13, two forward owners of `lookupQuery` and no reverse owner: the lookup fails. -/
theorem GetOsrmNode_ambiguity_fatal_witness :
    GetOsrmNode [⟨5, 0, 9⟩, ⟨5, 1, 8⟩] [] lookupQuery = none := by
  apply GetOsrmNode_ambiguity_fatal [⟨5, 0, 9⟩, ⟨5, 1, 8⟩] [] lookupQuery (by decide)
  · intro d s hs _
    have hd : d < 2 := (List.getElem?_eq_some.1 hs).1
    interval_cases d <;> decide
  · left
    refine ⟨0, 1, ⟨5, 0, 9⟩, ⟨5, 1, 8⟩, by decide, rfl, by decide, rfl, by decide, ?_⟩
    intro e t he ht
    have he0 : e = 0 := by omega
    subst he0
    simp only [List.getElem?_cons_zero, Option.some.injEq] at ht
    subst ht
    decide

/-- C13, as stated, fails in two ways.  With a reverse owner first and then two forward
owners the scan stops at the first forward owner and returns `(1, 0)`; and on a table
where `GetNodeId` of the first forward owner is `INVALID` the second forward owner passes
the assertion, so the lookup returns `(0, INVALID)`. -/
theorem ambiguity_not_always_fatal :
    (isForwardOwner lookupQuery ⟨5, 0, 9⟩ = true ∧ isForwardOwner lookupQuery ⟨5, 1, 8⟩ = true ∧
      lookupQuery.m_pointStart < lookupQuery.m_pointEnd ∧
      GetOsrmNode earlyExitSegments [] lookupQuery = some (1, 0)) ∧
    (twoForwardSegments[1]? = some ⟨5, 0, 9⟩ ∧ twoForwardSegments[2]? = some ⟨5, 0, 9⟩ ∧
      GetOsrmNode twoForwardSegments wrappingTable lookupQuery = some (0, INVALID)) := by
  decide

/-- C14 (amended). For a query with `pointStart < pointEnd`, when `GetNodeId` does not
yield `INVALID` at an owner's index and `GetOsrmNode` returns `(forward, reverse)`:
`forward` is `GetNodeId(i)` for the smallest index `i` holding a forward owner (same
feature, `s.pointStart ≤ s.pointEnd`, range containing the query) and `INVALID` when there
is none; `reverse` likewise over the reverse owners; and replacing segments of other
features by segments of other features does not change the result. -/
theorem GetOsrmNode_result (segs : List FtSeg) (offs : List SegOffset) (q : FtSeg)
    (fw rv : Nat) (hq : q.m_pointStart < q.m_pointEnd)
    (hid : ∀ (d : Nat) (s : FtSeg), segs[d]? = some s →
      (isForwardOwner q s = true ∨ isReverseOwner q s = true) →
      GetNodeId offs d ≠ some INVALID)
    (hret : GetOsrmNode segs offs q = some (fw, rv)) :
    (∀ (i : Nat) (s : FtSeg), segs[i]? = some s → isForwardOwner q s = true →
      (∀ (e : Nat) (t : FtSeg), e < i → segs[e]? = some t → isForwardOwner q t = false) →
      GetNodeId offs i = some fw) ∧
    ((∀ (i : Nat) (s : FtSeg), segs[i]? = some s → isForwardOwner q s = false) →
      fw = INVALID) ∧
    (∀ (i : Nat) (s : FtSeg), segs[i]? = some s → isReverseOwner q s = true →
      (∀ (e : Nat) (t : FtSeg), e < i → segs[e]? = some t → isReverseOwner q t = false) →
      GetNodeId offs i = some rv) ∧
    ((∀ (i : Nat) (s : FtSeg), segs[i]? = some s → isReverseOwner q s = false) →
      rv = INVALID) ∧
    (∀ segs1, SameOnFeature q segs segs1 → GetOsrmNode segs1 offs q = some (fw, rv)) := by
  have H : ∀ (d : Nat) (s : FtSeg), segs[d]? = some s →
      (isForwardOwner q s = true ∨ isReverseOwner q s = true) →
      GetNodeId offs (0 + d) ≠ some INVALID := by
    intro d s hs ho
    rw [Nat.zero_add]
    exact hid d s hs ho
  have hloop : GetOsrmNodeLoop offs q segs 0 INVALID INVALID = some (fw, rv) := by
    unfold GetOsrmNode at hret
    rwa [if_neg (by simpa using hq)] at hret
  obtain ⟨-, hf, -, hr⟩ := loop_result offs q segs 0 INVALID INVALID fw rv H hloop
  have hf := hf rfl
  have hr := hr rfl
  refine ⟨?_, ?_, ?_, ?_, ?_⟩
  · intro i s hs hF hmin
    rw [firstIndexFrom_eq_some _ segs 0 i s hs hF hmin, Nat.zero_add] at hf
    exact hf.symm
  · intro hnone
    rw [firstIndexFrom_eq_none _ segs 0 hnone] at hf
    simpa [ownerNode] using hf
  · intro i s hs hR hmin
    rw [firstIndexFrom_eq_some _ segs 0 i s hs hR hmin, Nat.zero_add] at hr
    exact hr.symm
  · intro hnone
    rw [firstIndexFrom_eq_none _ segs 0 hnone] at hr
    simpa [ownerNode] using hr
  · intro segs1 hsame
    unfold GetOsrmNode
    rw [if_neg (by simpa using hq), ← loop_sameOnFeature offs q segs segs1 hsame]
    exact hloop

/-- C14, a forward owner at index `1` behind a segment of another feature, and a reverse
owner at index `2`: the lookup returns `(1, 2)`. -/
theorem GetOsrmNode_result_witness :
    GetOsrmNode [⟨9, 0, 1⟩, ⟨5, 0, 9⟩, ⟨5, 9, 0⟩] [] lookupQuery = some (1, 2) ∧
    GetNodeId [] 1 = some 1 ∧ GetNodeId [] 2 = some 2 := by
  have hid : ∀ (d : Nat) (s : FtSeg),
      ([⟨9, 0, 1⟩, ⟨5, 0, 9⟩, ⟨5, 9, 0⟩] : List FtSeg)[d]? = some s →
      (isForwardOwner lookupQuery s = true ∨ isReverseOwner lookupQuery s = true) →
      GetNodeId [] d ≠ some INVALID := by
    intro d s hs _
    have hd : d < 3 := (List.getElem?_eq_some.1 hs).1
    interval_cases d <;> decide
  have h := GetOsrmNode_result [⟨9, 0, 1⟩, ⟨5, 0, 9⟩, ⟨5, 9, 0⟩] [] lookupQuery 1 2
    (by decide) hid (by decide)
  refine ⟨by decide, ?_, ?_⟩
  · refine h.1 1 ⟨5, 0, 9⟩ rfl (by decide) ?_
    intro e t he ht
    have he0 : e = 0 := by omega
    subst he0
    simp only [List.getElem?_cons_zero, Option.some.injEq] at ht
    subst ht
    decide
  · refine h.2.2.1 2 ⟨5, 9, 0⟩ rfl (by decide) ?_
    intro e t he ht
    have hd : e < 2 := he
    interval_cases e <;>
      (simp only [List.getElem?_cons_zero, List.getElem?_cons_succ, Option.some.injEq] at ht
       subst ht
       decide)

/-- C14, as stated, fails on a table where `GetNodeId` of the first forward owner is
`INVALID`: the smallest forward owner index is `1` and `GetNodeId(1) = INVALID`, but the
second forward owner passes the assertion and the lookup returns `forward = 0`. -/
theorem forward_is_not_first_owner :
    lookupQuery.m_pointStart < lookupQuery.m_pointEnd ∧
    GetOsrmNode twoForwardSegments wrappingTable lookupQuery = some (0, INVALID) ∧
    firstIndexFrom (isForwardOwner lookupQuery) twoForwardSegments 0 = some 1 ∧
    GetNodeId wrappingTable 1 = some INVALID ∧
    GetNodeId wrappingTable 1 ≠ some 0 := by
  decide

/-! ## Decoding an arbitrary ascending table -/

theorem offset_le_of_pairwise (offs : List SegOffset)
    (ho : offs.Pairwise (fun a b => a.m_offset ≤ b.m_offset))
    (p q : Nat) (x y : SegOffset) (hpq : p ≤ q)
    (hx : offs[p]? = some x) (hy : offs[q]? = some y) : x.m_offset ≤ y.m_offset := by
  by_cases hpq2 : p = q
  · subst hpq2
    rw [hx] at hy
    cases hy
    exact le_refl _
  · obtain ⟨hp, rfl⟩ := List.getElem?_eq_some.1 hx
    obtain ⟨hq, rfl⟩ := List.getElem?_eq_some.1 hy
    exact List.pairwise_iff_getElem.1 ho p q hp hq (by omega)

theorem prevOffsetAt_eq (offs : List SegOffset) (idx : Nat) (hidx : idx ≤ offs.length) :
    (if idx > 0 then (offs[idx - 1]?).map (fun o => o.m_offset) else some 0) =
      some (prevOffsetAt offs idx) := by
  cases idx with
  | zero => rfl
  | succ i =>
    have hi : i < offs.length := by omega
    simp [prevOffsetAt, List.getElem?_eq_getElem hi]

theorem prevOffsetAt_start (offs : List SegOffset) (idx k : Nat) (hidx : idx ≤ offs.length)
    (hw : ∀ e ∈ offs, k + e.m_offset < 4294967296) :
    (if idx > 0 then (offs[idx - 1]?).map (fun o => (o.m_offset + k) % 4294967296)
      else some k) = some (prevOffsetAt offs idx + k) := by
  cases idx with
  | zero => simp [prevOffsetAt]
  | succ i =>
    have hi : i < offs.length := by omega
    have := hw offs[i] (List.getElem_mem _)
    simp only [prevOffsetAt, List.getElem?_eq_getElem hi, gt_iff_lt, Nat.zero_lt_succ, if_true,
      Nat.add_sub_cancel, Option.map_some', Option.getD_some, Option.some.injEq]
    exact Nat.mod_eq_of_lt (by omega)

theorem prevOffsetAt_ge (offs : List SegOffset)
    (ho : offs.Pairwise (fun a b => a.m_offset ≤ b.m_offset))
    (idx p : Nat) (x : SegOffset) (hidx : idx ≤ offs.length) (hp : p < idx)
    (hx : offs[p]? = some x) : x.m_offset ≤ prevOffsetAt offs idx := by
  cases idx with
  | zero => omega
  | succ i =>
    have hi : i < offs.length := by omega
    have hget : offs[i]? = some offs[i] := List.getElem?_eq_getElem hi
    have := offset_le_of_pairwise offs ho p i x _ (by omega) hx hget
    simpa [prevOffsetAt, hget] using this

theorem prevOffsetAt_le (offs : List SegOffset)
    (ho : offs.Pairwise (fun a b => a.m_offset ≤ b.m_offset))
    (idx p : Nat) (x : SegOffset) (hp : idx ≤ p)
    (hx : offs[p]? = some x) : prevOffsetAt offs idx ≤ x.m_offset := by
  cases idx with
  | zero => simp [prevOffsetAt]
  | succ i =>
    have hplen : p < offs.length := (List.getElem?_eq_some.1 hx).1
    have hi : i < offs.length := by omega
    have hget : offs[i]? = some offs[i] := List.getElem?_eq_getElem hi
    have := offset_le_of_pairwise offs ho i p _ x (by omega) hget hx
    simpa [prevOffsetAt, hget] using this

theorem prevOffsetAt_fits (offs : List SegOffset) (idx k : Nat) (hidx : idx ≤ offs.length)
    (hk : k < 4294967296) (hw : ∀ e ∈ offs, k + e.m_offset < 4294967296) :
    prevOffsetAt offs idx + k < 4294967296 := by
  cases idx with
  | zero => simpa [prevOffsetAt] using hk
  | succ i =>
    have hi : i < offs.length := by omega
    have := hw offs[i] (List.getElem_mem _)
    simp only [prevOffsetAt, List.getElem?_eq_getElem hi, Option.map_some', Option.getD_some]
    omega

theorem SplitAt.unique {offs : List SegOffset} {a b k : Nat}
    (ha : SplitAt offs a k) (hb : SplitAt offs b k) : a = b := by
  obtain ⟨ha1, ha2, ha3⟩ := ha
  obtain ⟨hb1, hb2, hb3⟩ := hb
  by_contra hne
  rcases Nat.lt_or_gt_of_ne hne with h | h
  · have hget : offs[a]? = some offs[a] := List.getElem?_eq_getElem (by omega)
    have h1 := hb2 a _ h hget
    have h2 := ha3 a _ (le_refl _) hget
    omega
  · have hget : offs[b]? = some offs[b] := List.getElem?_eq_getElem (by omega)
    have h1 := ha2 b _ h hget
    have h2 := hb3 b _ (le_refl _) hget
    omega

theorem rangeAt_fst (offs : List SegOffset) (idx k : Nat) :
    (rangeAt offs idx k).1 = prevOffsetAt offs idx + k := by
  unfold rangeAt
  cases offs[idx]? with
  | none => rfl
  | some o =>
    simp only
    split_ifs <;> rfl

theorem rangeAt_snd_pos (offs : List SegOffset) (idx k : Nat) :
    1 ≤ (rangeAt offs idx k).2 := by
  unfold rangeAt
  cases offs[idx]? with
  | none => exact le_refl _
  | some o =>
    simp only
    split_ifs
    · simp
    · exact le_refl _

theorem GetSegmentsRange_eq_rangeAt (offs : List SegOffset) (k : Nat)
    (hn : offs.Pairwise (fun a b => a.m_nodeId < b.m_nodeId))
    (ho : offs.Pairwise (fun a b => a.m_offset ≤ b.m_offset))
    (hw : ∀ e ∈ offs, k + e.m_offset < 4294967296) :
    ∃ idx, SplitAt offs idx k ∧ GetSegmentsRange offs k = some (rangeAt offs idx k) := by
  have hs := GetSegmentsRange_split offs hn k
  refine ⟨_, hs, ?_⟩
  unfold GetSegmentsRange rangeAt
  dsimp only
  generalize lower_bound (fun o : SegOffset => decide (o.m_nodeId < k)) offs = idx at *
  rw [prevOffsetAt_start offs idx k hs.1 hw]
  dsimp only
  by_cases hin : idx < offs.length
  · have hget : offs[idx]? = some offs[idx] := List.getElem?_eq_getElem hin
    have hle := prevOffsetAt_le offs ho idx idx _ (le_refl _) hget
    have hfit := hw offs[idx] (List.getElem_mem _)
    rw [if_pos hin, hget]
    dsimp only
    split_ifs with hk
    · simp only [Option.some.injEq, Prod.mk.injEq, true_and]
      omega
    · rfl
  · rw [if_neg hin, List.getElem?_eq_none (by omega)]

theorem SplitAt.succ_of_entry {offs : List SegOffset} {idx k : Nat}
    (hn : offs.Pairwise (fun a b => a.m_nodeId < b.m_nodeId))
    (hs : SplitAt offs idx k) (o : SegOffset) (ho : offs[idx]? = some o)
    (hk : o.m_nodeId = k) : SplitAt offs (idx + 1) (k + 1) := by
  obtain ⟨h1, h2, h3⟩ := hs
  have hlen : idx < offs.length := (List.getElem?_eq_some.1 ho).1
  refine ⟨by omega, ?_, ?_⟩
  · intro p x hp hx
    by_cases hpi : p < idx
    · have := h2 p x hpi hx
      omega
    · have : p = idx := by omega
      subst this
      rw [ho] at hx
      cases hx
      omega
  · intro p x hp hx
    have := nodeId_lt_of_pairwise offs hn idx p o x (by omega) ho hx
    omega

theorem SplitAt.succ_of_no_entry {offs : List SegOffset} {idx k : Nat}
    (hs : SplitAt offs idx k)
    (hno : ∀ o, offs[idx]? = some o → o.m_nodeId ≠ k)
    (hn : offs.Pairwise (fun a b => a.m_nodeId < b.m_nodeId)) :
    SplitAt offs idx (k + 1) := by
  obtain ⟨h1, h2, h3⟩ := hs
  refine ⟨h1, ?_, ?_⟩
  · intro p x hp hx
    have := h2 p x hp hx
    omega
  · intro p x hp hx
    by_cases hpi : p = idx
    · subst hpi
      have := h3 p x (le_refl _) hx
      have := hno x hx
      omega
    · have hplen : p < offs.length := (List.getElem?_eq_some.1 hx).1
      have hget : offs[idx]? = some offs[idx] := List.getElem?_eq_getElem (by omega)
      have := nodeId_lt_of_pairwise offs hn idx p _ x (by omega) hget hx
      have := h3 idx _ (le_refl _) hget
      omega

theorem sum_partitioned (offs : List SegOffset)
    (hn : offs.Pairwise (fun a b => a.m_nodeId < b.m_nodeId))
    (ho : offs.Pairwise (fun a b => a.m_offset ≤ b.m_offset))
    (hw : ∀ e ∈ offs, e.m_nodeId + e.m_offset < 4294967296) (j : Nat) :
    Partitioned (fun o : SegOffset =>
      decide ((o.m_nodeId + o.m_offset) % 4294967296 < j % 4294967296)) offs := by
  intro p q x y hpq hx hy hc
  simp only [decide_eq_true_eq] at hc ⊢
  have hxf := hw x (List.mem_iff_getElem?.2 ⟨p, hx⟩)
  have hyf := hw y (List.mem_iff_getElem?.2 ⟨q, hy⟩)
  rw [Nat.mod_eq_of_lt hxf]
  rw [Nat.mod_eq_of_lt hyf] at hc
  have h1 := nodeId_le_of_pairwise offs hn p q x y hpq hx hy
  have h2 := offset_le_of_pairwise offs ho p q x y hpq hx hy
  omega

theorem GetNodeId_of_split (offs : List SegOffset) (idx k j : Nat)
    (hn : offs.Pairwise (fun a b => a.m_nodeId < b.m_nodeId))
    (ho : offs.Pairwise (fun a b => a.m_offset ≤ b.m_offset))
    (hw : ∀ e ∈ offs, e.m_nodeId + e.m_offset < 4294967296)
    (hk : k < 4294967296) (hwk : ∀ e ∈ offs, k + e.m_offset < 4294967296)
    (hs : SplitAt offs idx k)
    (hj1 : (rangeAt offs idx k).1 ≤ j)
    (hj2 : j < (rangeAt offs idx k).1 + (rangeAt offs idx k).2) :
    GetNodeId offs j = some k := by
  obtain ⟨hs1, hs2, hs3⟩ := hs
  have hpfit := prevOffsetAt_fits offs idx k hs1 hk hwk
  rw [rangeAt_fst] at hj1 hj2
  -- the shape of the range at `idx`
  have hshape :
      (∃ o, offs[idx]? = some o ∧ o.m_nodeId = k ∧ prevOffsetAt offs idx ≤ o.m_offset ∧
        j ≤ o.m_offset + k) ∨
      ((∀ o, offs[idx]? = some o → k < o.m_nodeId) ∧ j = prevOffsetAt offs idx + k) := by
    cases hget : offs[idx]? with
    | none =>
      right
      simp only [rangeAt, hget] at hj2
      exact ⟨fun o h => (by cases h), by omega⟩
    | some o =>
      have hle := prevOffsetAt_le offs ho idx idx o (le_refl _) hget
      have hge := hs3 idx o (le_refl _) hget
      by_cases hok : o.m_nodeId = k
      · left
        simp only [rangeAt, hget, hok, if_true] at hj2
        exact ⟨o, rfl, hok, hle, by omega⟩
      · right
        simp only [rangeAt, hget, hok, if_false] at hj2
        refine ⟨fun o1 ho1 => ?_, by omega⟩
        cases ho1
        omega
  have hjfit : j < 4294967296 := by
    rcases hshape with ⟨o, hget, hok, hle, hjle⟩ | ⟨-, hje⟩
    · have := hw o (List.mem_iff_getElem?.2 ⟨idx, hget⟩)
      omega
    · omega
  -- the sums before `idx` are below `j`, the sums from `idx` on are not
  have hA : ∀ (p : Nat) (x : SegOffset), p < idx → offs[p]? = some x →
      x.m_nodeId + x.m_offset < j := by
    intro p x hp hx
    have h1 := hs2 p x hp hx
    have h2 := prevOffsetAt_ge offs ho idx p x hs1 hp hx
    omega
  have hB : ∀ (p : Nat) (x : SegOffset), idx ≤ p → offs[p]? = some x →
      j ≤ x.m_nodeId + x.m_offset := by
    intro p x hp hx
    have h1 := hs3 p x hp hx
    have hplen : p < offs.length := (List.getElem?_eq_some.1 hx).1
    have hget : offs[idx]? = some offs[idx] := List.getElem?_eq_getElem (by omega)
    have h2 := offset_le_of_pairwise offs ho idx p _ x hp hget hx
    have h3 := nodeId_le_of_pairwise offs hn idx p _ x hp hget hx
    rcases hshape with ⟨o, hgeto, hok, hle, hjle⟩ | ⟨hgt, hje⟩
    · rw [hget] at hgeto
      cases hgeto
      omega
    · have := hgt _ hget
      have := prevOffsetAt_le offs ho idx idx _ (le_refl _) hget
      omega
  -- so the binary search of `GetNodeId` stops at `idx`
  obtain ⟨g1, g2, g3⟩ := lower_bound_spec _ offs (sum_partitioned offs hn ho hw j)
  have hlb : lower_bound (fun o : SegOffset =>
      decide ((o.m_nodeId + o.m_offset) % 4294967296 < j % 4294967296)) offs = idx := by
    generalize lower_bound (fun o : SegOffset =>
      decide ((o.m_nodeId + o.m_offset) % 4294967296 < j % 4294967296)) offs = idx1 at *
    by_contra hne
    rcases Nat.lt_or_gt_of_ne hne with h | h
    · have hget : offs[idx1]? = some offs[idx1] := List.getElem?_eq_getElem (by omega)
      have h1 := g3 idx1 _ (le_refl _) hget
      have h2 := hA idx1 _ h hget
      have hf := hw offs[idx1] (List.getElem_mem _)
      simp only [decide_eq_false_iff_not] at h1
      rw [Nat.mod_eq_of_lt hf, Nat.mod_eq_of_lt hjfit] at h1
      omega
    · have hget : offs[idx]? = some offs[idx] := List.getElem?_eq_getElem (by omega)
      have h1 := g2 idx _ h hget
      have h2 := hB idx _ (le_refl _) hget
      have hf := hw offs[idx] (List.getElem_mem _)
      simp only [decide_eq_true_eq] at h1
      rw [Nat.mod_eq_of_lt hf, Nat.mod_eq_of_lt hjfit] at h1
      omega
  unfold GetNodeId
  dsimp only
  rw [hlb, prevOffsetAt_eq offs idx hs1]
  dsimp only
  by_cases hin : idx < offs.length
  · have hget : offs[idx]? = some offs[idx] := List.getElem?_eq_getElem hin
    have hf := hw offs[idx] (List.getElem_mem _)
    have hle := prevOffsetAt_le offs ho idx idx _ (le_refl _) hget
    rw [if_pos hin, hget]
    dsimp only
    rcases hshape with ⟨o, hgeto, hok, -, hjle⟩ | ⟨hgt, hje⟩
    · rw [hget] at hgeto
      cases hgeto
      rw [if_pos (by omega), hok]
    · have := hgt _ hget
      rw [if_neg (by omega)]
      simp only [Option.some.injEq]
      omega
  · rw [if_neg hin]
    rcases hshape with ⟨o, hgeto, -, -, -⟩ | ⟨-, hje⟩
    · have := (List.getElem?_eq_some.1 hgeto).1
      omega
    · simp only [Option.some.injEq]
      omega

/-! ## The claims about arbitrary ascending tables -/

/-- C17. On an Offset Table that is strictly ascending in `nodeId` and strictly ascending
in `cumulativeOffset` with first offset at least `1`, and on which no 32-bit sum wraps
(every `nodeId + cumulativeOffset` of the table and `k + cumulativeOffset` stay below
`2^32`), `GetSegmentsRange(k)` returns a range `(start, len)` and `GetNodeId(j) = k` for
every segment index `j` with `start ≤ j < start + len`. -/
theorem GetNodeId_left_inverse (offs : List SegOffset)
    (hn : offs.Pairwise (fun a b => a.m_nodeId < b.m_nodeId))
    (ho : offs.Pairwise (fun a b => a.m_offset < b.m_offset))
    (_hfirst : ∀ e, offs.head? = some e → 1 ≤ e.m_offset)
    (hw : ∀ e ∈ offs, e.m_nodeId + e.m_offset < 4294967296)
    (k : Nat) (hk : k < 4294967296) (hwk : ∀ e ∈ offs, k + e.m_offset < 4294967296) :
    ∃ start len, GetSegmentsRange offs k = some (start, len) ∧
      ∀ j, start ≤ j → j < start + len → GetNodeId offs j = some k := by
  have ho1 : offs.Pairwise (fun a b => a.m_offset ≤ b.m_offset) :=
    ho.imp (fun hab => Nat.le_of_lt hab)
  obtain ⟨idx, hs, hr⟩ := GetSegmentsRange_eq_rangeAt offs k hn ho1 hwk
  refine ⟨(rangeAt offs idx k).1, (rangeAt offs idx k).2, hr, ?_⟩
  intro j hj1 hj2
  exact GetNodeId_of_split offs idx k j hn ho1 hw hk hwk hs hj1 hj2

/-- C17, on the table `[(1, 1), (4, 3)]`: node `4` owns the segment indices `5, 6, 7`. -/
theorem GetNodeId_left_inverse_witness :
    GetSegmentsRange [⟨1, 1⟩, ⟨4, 3⟩] 4 = some (5, 3) ∧
    ∃ start len, GetSegmentsRange [⟨1, 1⟩, ⟨4, 3⟩] 4 = some (start, len) ∧
      ∀ j, start ≤ j → j < start + len → GetNodeId [⟨1, 1⟩, ⟨4, 3⟩] j = some 4 :=
  ⟨by decide,
   GetNodeId_left_inverse [⟨1, 1⟩, ⟨4, 3⟩] (by decide) (by decide) (by decide) (by decide)
     4 (by decide) (by decide)⟩

/-- C18. On an Offset Table that is strictly ascending in `nodeId` and non-decreasing in
`cumulativeOffset`, without 32-bit wrap-around, the range of node `0` starts at `0`, every
range has length at least `1`, and the range of node `k + 1` starts where the range of
node `k` ends. -/
theorem ranges_tile (offs : List SegOffset)
    (hn : offs.Pairwise (fun a b => a.m_nodeId < b.m_nodeId))
    (ho : offs.Pairwise (fun a b => a.m_offset ≤ b.m_offset))
    (hw : ∀ e ∈ offs, e.m_nodeId + e.m_offset < 4294967296) :
    (∃ len, GetSegmentsRange offs 0 = some (0, len)) ∧
    ∀ k, k + 1 < 4294967296 → (∀ e ∈ offs, k + 1 + e.m_offset < 4294967296) →
      ∃ start len start1 len1,
        GetSegmentsRange offs k = some (start, len) ∧
        GetSegmentsRange offs (k + 1) = some (start1, len1) ∧
        1 ≤ len ∧ start1 = start + len := by
  constructor
  · have hw0 : ∀ e ∈ offs, 0 + e.m_offset < 4294967296 := by
      intro e he
      have := hw e he
      omega
    obtain ⟨idx, hs, hr⟩ := GetSegmentsRange_eq_rangeAt offs 0 hn ho hw0
    have h0 : SplitAt offs 0 0 :=
      ⟨Nat.zero_le _, fun p x hp _ => by omega, fun p x _ _ => Nat.zero_le _⟩
    have hidx : idx = 0 := hs.unique h0
    subst hidx
    refine ⟨(rangeAt offs 0 0).2, ?_⟩
    rw [hr]
    congr 1
    apply Prod.ext
    · rw [rangeAt_fst]
      rfl
    · rfl
  · intro k _ hwk1
    have hwk : ∀ e ∈ offs, k + e.m_offset < 4294967296 := by
      intro e he
      have := hwk1 e he
      omega
    obtain ⟨idx, hs, hr⟩ := GetSegmentsRange_eq_rangeAt offs k hn ho hwk
    obtain ⟨idx1, hs1, hr1⟩ := GetSegmentsRange_eq_rangeAt offs (k + 1) hn ho hwk1
    refine ⟨(rangeAt offs idx k).1, (rangeAt offs idx k).2, (rangeAt offs idx1 (k + 1)).1,
      (rangeAt offs idx1 (k + 1)).2, hr, hr1, rangeAt_snd_pos offs idx k, ?_⟩
    rw [rangeAt_fst, rangeAt_fst]
    by_cases hown : ∃ o, offs[idx]? = some o ∧ o.m_nodeId = k
    · obtain ⟨o, hget, hok⟩ := hown
      have hidx : idx1 = idx + 1 := hs1.unique (hs.succ_of_entry hn o hget hok)
      have hle := prevOffsetAt_le offs ho idx idx o (le_refl _) hget
      subst hidx
      have hp1 : prevOffsetAt offs (idx + 1) = o.m_offset := by
        simp [prevOffsetAt, hget]
      have hlen : (rangeAt offs idx k).2 = o.m_offset - prevOffsetAt offs idx + 1 := by
        unfold rangeAt
        rw [hget]
        simp only
        rw [if_pos hok]
      rw [hp1, hlen]
      omega
    · have hno : ∀ o, offs[idx]? = some o → o.m_nodeId ≠ k :=
        fun o hget hok => hown ⟨o, hget, hok⟩
      have hidx : idx1 = idx := hs1.unique (hs.succ_of_no_entry hno hn)
      subst hidx
      have hlen : (rangeAt offs idx1 k).2 = 1 := by
        unfold rangeAt
        cases hget : offs[idx1]? with
        | none => rfl
        | some o =>
          simp only
          rw [if_neg (hno o hget)]
      rw [hlen]
      omega

/-- C18, on the table `[(1, 1), (4, 3)]`: the ranges of nodes `4` and `5` are adjacent. -/
theorem ranges_tile_witness :
    GetSegmentsRange [⟨1, 1⟩, ⟨4, 3⟩] 4 = some (5, 3) ∧
    GetSegmentsRange [⟨1, 1⟩, ⟨4, 3⟩] 5 = some (8, 1) ∧
    (∃ len, GetSegmentsRange [⟨1, 1⟩, ⟨4, 3⟩] 0 = some (0, len)) :=
  ⟨by decide, by decide,
   (ranges_tile [⟨1, 1⟩, ⟨4, 3⟩] (by decide) (by decide) (by decide)).1⟩

/-! ## The orderings the two binary searches rely on -/

/-- C16 (amended). After any sequence of successful `Append` calls with strictly increasing
node ids on a fresh builder the Offset Table is strictly ascending by `nodeId` and strictly
ascending by `cumulativeOffset` with every offset at least `1`, so it is partitioned for
the comparator of `GetSegmentsRange`; and provided no `nodeId + cumulativeOffset` of the
table reaches `2^32`, it is strictly ascending by the 32-bit sum
`nodeId + cumulativeOffset` that the comparator of `GetNodeId` forms, and partitioned for
that comparator at every key. -/
theorem offsets_search_order (cs : List (Nat × List FtSeg)) (b : OsrmFtSegMappingBuilder)
    (hinc : cs.Pairwise (fun a c => a.1 < c.1))
    (h : appendAll fresh cs = some b) :
    b.m_offsets.Pairwise (fun x y => x.m_nodeId < y.m_nodeId) ∧
    b.m_offsets.Pairwise (fun x y => x.m_offset < y.m_offset) ∧
    (∀ e ∈ b.m_offsets, 1 ≤ e.m_offset) ∧
    (∀ k, Partitioned (fun o : SegOffset => decide (o.m_nodeId < k)) b.m_offsets) ∧
    ((∀ e ∈ b.m_offsets, e.m_nodeId + e.m_offset < 4294967296) →
      b.m_offsets.Pairwise (fun x y =>
        (x.m_nodeId + x.m_offset) % 4294967296 < (y.m_nodeId + y.m_offset) % 4294967296) ∧
      ∀ i, Partitioned (fun o : SegOffset =>
        decide ((o.m_nodeId + o.m_offset) % 4294967296 < i % 4294967296)) b.m_offsets) := by
  have hoff : b.m_offsets = tableOf 0 cs := by
    rw [appendAll_some cs fresh b h]
    simp [fresh]
  rw [hoff]
  have hn := tableOf_pairwise cs 0 hinc
  obtain ⟨hpos, ho⟩ := tableOf_offsets cs 0
  have ho1 : (tableOf 0 cs).Pairwise (fun a b => a.m_offset ≤ b.m_offset) :=
    ho.imp (fun hab => Nat.le_of_lt hab)
  have hsum := sum_lt_of_pairwise _ hn ho1
  refine ⟨hn, ho, fun e he => hpos e he, fun k => nodeId_partitioned _ hn k, ?_⟩
  intro hfit
  refine ⟨?_, fun i => sum_partitioned _ hn ho1 hfit i⟩
  refine List.Pairwise.imp_of_mem ?_ hsum
  intro x y hx hy hxy
  rw [Nat.mod_eq_of_lt (hfit x hx), Nat.mod_eq_of_lt (hfit y hy)]
  exact hxy

/-- C16, a run that leaves the two-entry table `[(0, 1), (3, 3)]`: ascending node ids
`0 < 3`, offsets `1 < 3`, and 32-bit sums `1 < 6`. -/
theorem offsets_search_order_witness :
    twoEntryCalls.Pairwise (fun a c => a.1 < c.1) ∧
    appendAll fresh twoEntryCalls = some twoEntryBuilder ∧
    twoEntryBuilder.m_offsets = [⟨0, 1⟩, ⟨3, 3⟩] ∧
    twoEntryBuilder.m_offsets.Pairwise (fun x y => x.m_nodeId < y.m_nodeId) ∧
    twoEntryBuilder.m_offsets.Pairwise (fun x y => x.m_offset < y.m_offset) ∧
    (∀ e ∈ twoEntryBuilder.m_offsets, e.m_nodeId + e.m_offset < 4294967296) ∧
    twoEntryBuilder.m_offsets.Pairwise (fun x y =>
      (x.m_nodeId + x.m_offset) % 4294967296 < (y.m_nodeId + y.m_offset) % 4294967296) :=
  ⟨by decide, by decide, rfl,
   (offsets_search_order twoEntryCalls twoEntryBuilder (by decide) (by decide)).1,
   (offsets_search_order twoEntryCalls twoEntryBuilder (by decide) (by decide)).2.1,
   by decide,
   ((offsets_search_order twoEntryCalls twoEntryBuilder (by decide) (by decide)).2.2.2.2
      (by decide)).1⟩

/-- C16, as stated, fails for the ordering by `nodeId + cumulativeOffset` that the
comparator of `GetNodeId` uses: `Append(0, 2 segments); Append(2^32 - 2, 2 segments)`
succeeds with strictly increasing node ids and writes `[(0, 1), (2^32 - 2, 2)]`, whose
32-bit sums are `1` and `0`.  The table is not partitioned for the key `1`, and
`GetNodeId(1)` is `2^32 - 1` although segment `1` lies in the range `(0, 2)` of node `0`. -/
theorem sums_wrap_out_of_order :
    wrappingCalls.Pairwise (fun a c => a.1 < c.1) ∧
    appendAll fresh wrappingCalls = some wrappingBuilder ∧
    wrappingBuilder.m_offsets = [⟨0, 1⟩, ⟨4294967294, 2⟩] ∧
    (wrappingBuilder.m_offsets.map
        (fun o => (o.m_nodeId + o.m_offset) % 4294967296)) = [1, 0] ∧
    ¬ wrappingBuilder.m_offsets.Pairwise (fun x y =>
        (x.m_nodeId + x.m_offset) % 4294967296 < (y.m_nodeId + y.m_offset) % 4294967296) ∧
    ¬ Partitioned (fun o : SegOffset =>
        decide ((o.m_nodeId + o.m_offset) % 4294967296 < 1 % 4294967296))
        wrappingBuilder.m_offsets ∧
    GetSegmentsRange wrappingBuilder.m_offsets 0 = some (0, 2) ∧
    GetNodeId wrappingBuilder.m_offsets 1 = some 4294967295 := by
  refine ⟨by decide, by decide, rfl, by decide, by decide, ?_, by decide, by decide⟩
  intro hp
  have := hp 0 1 ⟨0, 1⟩ ⟨4294967294, 2⟩ (by decide) rfl rfl (by decide)
  revert this
  decide

end routing
